import Mathlib

/-!
# Verification of the TPIE external merge sorter and parallel pipeline core

A shallow embedding, in Lean 4, of `tpie::pipelining::merge_sorter`
(`merge_sorter.h`), of the run-file arithmetic it uses, and of the control
flow of the parallel pipeline core (`parallel.h`).

The `file_stream`, `merger`, `parallel_sort` and `tp_assert` facilities are
not part of the sources under verification; they are modelled from the
specification (a seekable item sequence, a k-way merge heap with ties broken
by run index, an in-place sort, and a checked assertion).  Everything about
`merge_sorter` itself (parameter calculation, run formation, run-file index
and offset arithmetic, the merge-level loop, the final merge, internal
reporting mode) is translated directly from the source.
-/

namespace Tpie

/-! ## Comparator-based sorting

Modelled from the spec: `parallel_sort(begin, end, pred)` sorts a contiguous
buffer in place; we model the buffer as a `List` and the sort as insertion
sort on a boolean "less or equal" comparator `le` (for a strict weak order
`pred`, `le a b` corresponds to `¬ pred b a`; "non-decreasing under `pred`"
is chains of `le`). -/

variable {α : Type _}

/-- Insert `x` into a list, before the first element `y` with `le x y`. -/
def insertLe (le : α → α → Bool) (x : α) : List α → List α
  | [] => [x]
  | y :: ys => if le x y then x :: y :: ys else y :: insertLe le x ys

/-- Modelled from the spec: `parallel_sort` — an in-place comparison sort of
the run buffer, here insertion sort by the comparator `le`. -/
def sortLe (le : α → α → Bool) : List α → List α
  | [] => []
  | x :: xs => insertLe le x (sortLe le xs)

theorem insertLe_perm (le : α → α → Bool) (x : α) (l : List α) :
    (insertLe le x l).Perm (x :: l) := by
  induction l with
  | nil => simp [insertLe]
  | cons y ys ih =>
    simp only [insertLe]
    split
    · exact List.Perm.refl _
    · exact ((ih.cons y).trans (List.Perm.swap x y ys)).symm.symm

theorem sortLe_perm (le : α → α → Bool) (l : List α) : (sortLe le l).Perm l := by
  induction l with
  | nil => simp [sortLe]
  | cons x xs ih =>
    exact (insertLe_perm le x (sortLe le xs)).trans (ih.cons x)

/-- Sortedness under a boolean comparator. -/
def SortedLe (le : α → α → Bool) (l : List α) : Prop :=
  l.Pairwise fun a b => le a b = true

theorem mem_insertLe (le : α → α → Bool) (x b : α) (l : List α) :
    b ∈ insertLe le x l ↔ b = x ∨ b ∈ l := by
  rw [(insertLe_perm le x l).mem_iff, List.mem_cons]

theorem insertLe_sorted (le : α → α → Bool)
    (htot : ∀ a b, le a b = true ∨ le b a = true)
    (htrans : ∀ a b c, le a b = true → le b c = true → le a c = true)
    (x : α) (l : List α) (hl : SortedLe le l) :
    SortedLe le (insertLe le x l) := by
  induction l with
  | nil => simp [insertLe, SortedLe]
  | cons y ys ih =>
    simp only [insertLe]
    rcases hl with - | ⟨hy, hys⟩
    split
    · next hxy =>
      refine List.Pairwise.cons ?_ (List.Pairwise.cons hy hys)
      intro b hb
      rcases List.mem_cons.1 hb with hb | hb
      · exact hb ▸ hxy
      · exact htrans x y b hxy (hy b hb)
    · next hxy =>
      refine List.Pairwise.cons ?_ (ih hys)
      intro b hb
      rcases (mem_insertLe le x b ys).1 hb with hb | hb
      · rcases htot x y with h | h
        · exact absurd h (by simpa using hxy)
        · exact hb ▸ h
      · exact hy b hb

theorem sortLe_sorted (le : α → α → Bool)
    (htot : ∀ a b, le a b = true ∨ le b a = true)
    (htrans : ∀ a b c, le a b = true → le b c = true → le a c = true)
    (l : List α) : SortedLe le (sortLe le l) := by
  induction l with
  | nil => simp [sortLe, SortedLe]
  | cons x xs ih => exact insertLe_sorted le htot htrans x _ ih

/-! ## The k-way merge heap

Modelled from the spec (§4.3): the `merger` holds one entry per nonempty
input stream in an indexed heap ordered by the comparator, ties broken by
run index (earliest run wins).  `popMin` = one `pop_and_push` round: it
removes the least current head among the streams; `kmerge` is the sequence
of items produced by pulling until the heap is empty. -/

/-- Remove the least head (ties to the earliest stream) among the streams;
`none` iff every stream is empty. -/
def popMin (le : α → α → Bool) : List (List α) → Option (α × List (List α))
  | [] => none
  | [] :: ss =>
    match popMin le ss with
    | none => none
    | some (a, ss') => some (a, [] :: ss')
  | (x :: xs) :: ss =>
    match popMin le ss with
    | none => some (x, xs :: ss)
    | some (y, ss') => if le x y then some (x, xs :: ss) else some (y, (x :: xs) :: ss')

/-- Total number of items over all streams. -/
def totalLen (ss : List (List α)) : Nat := (ss.map List.length).sum

theorem popMin_none (le : α → α → Bool) (ss : List (List α)) :
    popMin le ss = none ↔ ss.all List.isEmpty := by
  induction ss with
  | nil => simp [popMin]
  | cons s ss ih =>
    cases s with
    | nil =>
      simp only [popMin, List.all_cons, List.isEmpty_nil, Bool.true_and]
      cases h : popMin le ss with
      | none => simpa [h] using ih
      | some v => simp [h] at ih ⊢; simpa using ih
    | cons x xs =>
      simp only [popMin]
      cases h : popMin le ss with
      | none => simp
      | some v =>
        rcases v with ⟨y, ss'⟩
        by_cases hxy : le x y <;> simp [hxy]

theorem popMin_totalLen (le : α → α → Bool) (ss : List (List α)) (a : α)
    (ss' : List (List α)) (h : popMin le ss = some (a, ss')) :
    totalLen ss = totalLen ss' + 1 := by
  induction ss generalizing a ss' with
  | nil => simp [popMin] at h
  | cons s ss ih =>
    cases s with
    | nil =>
      simp only [popMin] at h
      cases h' : popMin le ss with
      | none => rw [h'] at h; exact absurd h (by simp)
      | some v =>
        rcases v with ⟨b, tt⟩
        rw [h'] at h
        simp only [Option.some.injEq, Prod.mk.injEq] at h
        rcases h with ⟨rfl, rfl⟩
        simpa [totalLen] using ih b tt h'
    | cons x xs =>
      simp only [popMin] at h
      cases h' : popMin le ss with
      | none =>
        rw [h'] at h
        simp only [Option.some.injEq, Prod.mk.injEq] at h
        rcases h with ⟨rfl, rfl⟩
        simp only [totalLen, List.map_cons, List.sum_cons, List.length_cons]
        omega
      | some v =>
        rcases v with ⟨y, tt⟩
        rw [h'] at h
        by_cases hxy : le x y
        · simp only [hxy, if_true, Option.some.injEq, Prod.mk.injEq] at h
          rcases h with ⟨rfl, rfl⟩
          simp only [totalLen, List.map_cons, List.sum_cons, List.length_cons]
          omega
        · simp only [hxy, if_false, Option.some.injEq, Prod.mk.injEq] at h
          rcases h with ⟨rfl, rfl⟩
          have := ih _ _ h'
          simp only [totalLen, List.map_cons, List.sum_cons, List.length_cons] at this ⊢
          omega

theorem popMin_perm (le : α → α → Bool) (ss : List (List α)) (a : α)
    (ss' : List (List α)) (h : popMin le ss = some (a, ss')) :
    (a :: ss'.flatten).Perm ss.flatten := by
  induction ss generalizing a ss' with
  | nil => simp [popMin] at h
  | cons s ss ih =>
    cases s with
    | nil =>
      simp only [popMin] at h
      cases h' : popMin le ss with
      | none => rw [h'] at h; exact absurd h (by simp)
      | some v =>
        rcases v with ⟨b, tt⟩
        rw [h'] at h
        simp only [Option.some.injEq, Prod.mk.injEq] at h
        rcases h with ⟨rfl, rfl⟩
        simpa using ih b tt h'
    | cons x xs =>
      simp only [popMin] at h
      cases h' : popMin le ss with
      | none =>
        rw [h'] at h
        simp only [Option.some.injEq, Prod.mk.injEq] at h
        rcases h with ⟨rfl, rfl⟩
        simp
      | some v =>
        rcases v with ⟨y, tt⟩
        rw [h'] at h
        by_cases hxy : le x y
        · simp only [hxy, if_true, Option.some.injEq, Prod.mk.injEq] at h
          rcases h with ⟨rfl, rfl⟩
          simp
        · simp only [hxy, if_false, Option.some.injEq, Prod.mk.injEq] at h
          rcases h with ⟨rfl, rfl⟩
          have hp := ih _ _ h'
          simp only [List.flatten_cons]
          exact List.Perm.trans List.perm_middle.symm (List.Perm.append_left (x :: xs) hp)

theorem totalLen_eq_length_flatten (ss : List (List α)) :
    totalLen ss = ss.flatten.length := by
  simp [totalLen, List.length_flatten]

theorem popMin_none_flatten (le : α → α → Bool) (ss : List (List α))
    (h : popMin le ss = none) : ss.flatten = [] := by
  rw [List.flatten_eq_nil_iff]
  intro l hl
  have := (popMin_none le ss).1 h
  rw [List.all_eq_true] at this
  simpa [List.isEmpty_iff] using this l hl

theorem popMin_sorted (le : α → α → Bool) (ss : List (List α)) (a : α)
    (ss' : List (List α)) (h : popMin le ss = some (a, ss'))
    (hs : ∀ l ∈ ss, SortedLe le l) : ∀ l ∈ ss', SortedLe le l := by
  induction ss generalizing a ss' with
  | nil => simp [popMin] at h
  | cons s ss ih =>
    cases s with
    | nil =>
      simp only [popMin] at h
      cases h' : popMin le ss with
      | none => rw [h'] at h; exact absurd h (by simp)
      | some v =>
        rcases v with ⟨b, tt⟩
        rw [h'] at h
        simp only [Option.some.injEq, Prod.mk.injEq] at h
        rcases h with ⟨rfl, rfl⟩
        intro l hl
        rcases List.mem_cons.1 hl with rfl | hl
        · exact List.Pairwise.nil
        · exact ih _ _ h' (fun m hm => hs m (List.mem_cons_of_mem _ hm)) l hl
    | cons x xs =>
      simp only [popMin] at h
      have hxxs : SortedLe le (x :: xs) := hs _ (List.mem_cons_self _ _)
      have hxs : SortedLe le xs := (List.pairwise_cons.1 hxxs).2
      cases h' : popMin le ss with
      | none =>
        rw [h'] at h
        simp only [Option.some.injEq, Prod.mk.injEq] at h
        rcases h with ⟨rfl, rfl⟩
        intro l hl
        rcases List.mem_cons.1 hl with rfl | hl
        · exact hxs
        · exact hs l (List.mem_cons_of_mem _ hl)
      | some v =>
        rcases v with ⟨y, tt⟩
        rw [h'] at h
        by_cases hxy : le x y
        · simp only [hxy, if_true, Option.some.injEq, Prod.mk.injEq] at h
          rcases h with ⟨rfl, rfl⟩
          intro l hl
          rcases List.mem_cons.1 hl with rfl | hl
          · exact hxs
          · exact hs l (List.mem_cons_of_mem _ hl)
        · simp only [hxy, if_false, Option.some.injEq, Prod.mk.injEq] at h
          rcases h with ⟨rfl, rfl⟩
          intro l hl
          rcases List.mem_cons.1 hl with rfl | hl
          · exact hxxs
          · exact ih _ _ h' (fun m hm => hs m (List.mem_cons_of_mem _ hm)) l hl

theorem popMin_min (le : α → α → Bool)
    (htot : ∀ a b, le a b = true ∨ le b a = true)
    (htrans : ∀ a b c, le a b = true → le b c = true → le a c = true)
    (ss : List (List α)) (a : α) (ss' : List (List α))
    (h : popMin le ss = some (a, ss')) (hs : ∀ l ∈ ss, SortedLe le l) :
    ∀ b ∈ ss'.flatten, le a b = true := by
  induction ss generalizing a ss' with
  | nil => simp [popMin] at h
  | cons s ss ih =>
    cases s with
    | nil =>
      simp only [popMin] at h
      cases h' : popMin le ss with
      | none => rw [h'] at h; exact absurd h (by simp)
      | some v =>
        rcases v with ⟨b, tt⟩
        rw [h'] at h
        simp only [Option.some.injEq, Prod.mk.injEq] at h
        rcases h with ⟨rfl, rfl⟩
        intro c hc
        simp only [List.flatten_cons, List.nil_append] at hc
        exact ih _ _ h' (fun m hm => hs m (List.mem_cons_of_mem _ hm)) c hc
    | cons x xs =>
      simp only [popMin] at h
      have hxxs : SortedLe le (x :: xs) := hs _ (List.mem_cons_self _ _)
      have hxhd : ∀ b ∈ xs, le x b = true := (List.pairwise_cons.1 hxxs).1
      cases h' : popMin le ss with
      | none =>
        rw [h'] at h
        simp only [Option.some.injEq, Prod.mk.injEq] at h
        rcases h with ⟨rfl, rfl⟩
        intro c hc
        simp only [List.flatten_cons] at hc
        rcases List.mem_append.1 hc with hc | hc
        · exact hxhd c hc
        · rw [popMin_none_flatten le ss h'] at hc
          simp at hc
      | some v =>
        rcases v with ⟨y, tt⟩
        rw [h'] at h
        have hy := ih _ _ h' (fun m hm => hs m (List.mem_cons_of_mem _ hm))
        have hyflat : ∀ b ∈ ss.flatten, le y b = true := by
          intro b hb
          have hperm := popMin_perm le ss y tt h'
          rcases List.mem_cons.1 (hperm.mem_iff.2 hb) with rfl | hb'
          · rcases htot b b with hbb | hbb <;> exact hbb
          · exact hy b hb'
        by_cases hxy : le x y
        · simp only [hxy, if_true, Option.some.injEq, Prod.mk.injEq] at h
          rcases h with ⟨rfl, rfl⟩
          intro c hc
          simp only [List.flatten_cons] at hc
          rcases List.mem_append.1 hc with hc | hc
          · exact hxhd c hc
          · exact htrans _ _ _ hxy (hyflat c hc)
        · simp only [hxy, if_false, Option.some.injEq, Prod.mk.injEq] at h
          rcases h with ⟨rfl, rfl⟩
          have hyx : le a x = true := by
            rcases htot x a with hh | hh
            · exact absurd hh (by simpa using hxy)
            · exact hh
          intro c hc
          simp only [List.flatten_cons] at hc
          rcases List.mem_append.1 hc with hc | hc
          · rcases List.mem_cons.1 hc with rfl | hc
            · exact hyx
            · exact htrans _ _ _ hyx (hxhd c hc)
          · exact hy c hc

/-- Fuel-indexed pull loop of the merge heap: pull while `can_pull`.  The
fuel argument makes the recursion structural; `kmerge` supplies enough fuel
to drain all streams. -/
def kmergeF (le : α → α → Bool) : Nat → List (List α) → List α
  | 0, _ => []
  | fuel + 1, ss =>
    match popMin le ss with
    | none => []
    | some (a, ss') => a :: kmergeF le fuel ss'

/-- The full output of the merge heap over the given input streams. -/
def kmerge (le : α → α → Bool) (ss : List (List α)) : List α :=
  kmergeF le (totalLen ss) ss

theorem kmergeF_perm (le : α → α → Bool) (fuel : Nat) (ss : List (List α))
    (hfuel : totalLen ss ≤ fuel) : (kmergeF le fuel ss).Perm ss.flatten := by
  induction fuel generalizing ss with
  | zero =>
    have : ss.flatten.length = 0 := by
      rw [← totalLen_eq_length_flatten]; omega
    rw [List.length_eq_zero] at this
    simp [kmergeF, this]
  | succ fuel ih =>
    simp only [kmergeF]
    cases h : popMin le ss with
    | none => rw [popMin_none_flatten le ss h]
    | some v =>
      rcases v with ⟨a, ss'⟩
      have hlen := popMin_totalLen le ss a ss' h
      have := ih ss' (by omega)
      exact (this.cons a).trans (popMin_perm le ss a ss' h)

theorem kmerge_perm (le : α → α → Bool) (ss : List (List α)) :
    (kmerge le ss).Perm ss.flatten :=
  kmergeF_perm le (totalLen ss) ss (Nat.le_refl _)

theorem kmergeF_sorted (le : α → α → Bool)
    (htot : ∀ a b, le a b = true ∨ le b a = true)
    (htrans : ∀ a b c, le a b = true → le b c = true → le a c = true)
    (fuel : Nat) (ss : List (List α)) (hfuel : totalLen ss ≤ fuel)
    (hs : ∀ l ∈ ss, SortedLe le l) : SortedLe le (kmergeF le fuel ss) := by
  induction fuel generalizing ss with
  | zero => exact List.Pairwise.nil
  | succ fuel ih =>
    simp only [kmergeF]
    cases h : popMin le ss with
    | none => exact List.Pairwise.nil
    | some v =>
      rcases v with ⟨a, ss'⟩
      have hlen := popMin_totalLen le ss a ss' h
      have hsort' := popMin_sorted le ss a ss' h hs
      refine List.Pairwise.cons ?_ (ih ss' (by omega) hsort')
      intro b hb
      have hb' : b ∈ ss'.flatten :=
        (kmergeF_perm le fuel ss' (by omega)).mem_iff.1 hb
      exact popMin_min le htot htrans ss a ss' h hs b hb'

theorem kmerge_sorted (le : α → α → Bool)
    (htot : ∀ a b, le a b = true ∨ le b a = true)
    (htrans : ∀ a b c, le a b = true → le b c = true → le a c = true)
    (ss : List (List α)) (hs : ∀ l ∈ ss, SortedLe le l) :
    SortedLe le (kmerge le ss) :=
  kmergeF_sorted le htot htrans (totalLen ss) ss (Nat.le_refl _) hs

/-! ## Errors and assertions -/

/-- Errors surfaced by the model.  `stateError` is the report of a failed
`tp_assert`; `invalidAccess` models an out-of-bounds buffer or heap access
(undefined behaviour in the C++ source). -/
inductive TpError
  | stateError (msg : String)
  | invalidAccess
  deriving DecidableEq, Repr

/-- Modelled from the spec: `tp_assert(cond, msg)` detects a programming
error and reports it (a `StateError`) when `cond` is false. -/
def tp_assert (cond : Bool) (msg : String) : Except TpError Unit :=
  if cond then pure () else throw (TpError.stateError msg)

/-! ## Merge sorter: parameters and run-file arithmetic

Translated from `merge_sorter.h`. -/

/-- The `sort_parameters` record (fields as used by `merge_sorter.h`). -/
structure sort_parameters where
  runLength : Nat
  internalReportThreshold : Nat
  fanout : Nat
  finalFanout : Nat
  memoryPhase2 : Nat := 0
  memoryPhase3 : Nat := 0
  memoryPhase4 : Nat := 0
  deriving Repr, DecidableEq

/-- `merge_sorter::calculate_run_length`: starting from `initialRunLength`,
multiply by `fanout` once per merge level. -/
def calculate_run_length (initialRunLength fanout : Nat) : Nat → Nat
  | 0 => initialRunLength
  | mergeLevel + 1 => calculate_run_length initialRunLength fanout mergeLevel * fanout

/-- `merge_sorter::run_file_index`: the index in `m_runFiles` of run
`runNumber` at level `mergeLevel`. -/
def run_file_index (fanout mergeLevel runNumber : Nat) : Nat :=
  (mergeLevel % 2) * fanout + (runNumber % fanout)

/-- Modelled from the spec: the sizes that `fanout_memory_usage` and
`calculate_parameters` combine — the merge heap's usage per fanout
(`merger<T, pred_t>::memory_usage`), one open stream
(`file_stream<T>::memory_usage()`), `sizeof(temp_file)` and `sizeof(T)`;
none of these is part of the sources under verification. -/
structure MemModel where
  mergerUsage : Nat → Nat
  streamUsage : Nat
  tempFileSize : Nat
  itemSize : Nat

/-- `merge_sorter::fanout_memory_usage`: merge heap for `fanout` streams,
one output stream, and the two `temp_file` handles. -/
def fanout_memory_usage (mm : MemModel) (fanout : Nat) : Nat :=
  mm.mergerUsage fanout + mm.streamUsage + 2 * mm.tempFileSize

/-- The binary-search loop of `merge_sorter::calculate_fanout`, with a fuel
argument standing for the loop's termination (at most `hi - lo` rounds). -/
def calculate_fanout_go (mm : MemModel) (availableMemory : Nat) :
    Nat → Nat → Nat → Nat
  | 0, lo, _ => lo
  | fuel + 1, lo, hi =>
    if lo < hi - 1 then
      let mid := lo + (hi - lo) / 2
      if fanout_memory_usage mm mid < availableMemory then
        calculate_fanout_go mm availableMemory fuel mid hi
      else
        calculate_fanout_go mm availableMemory fuel lo mid
    else lo

/-- `merge_sorter::calculate_fanout`: binary search over `[2, 251)`. -/
def calculate_fanout (mm : MemModel) (availableMemory : Nat) : Nat :=
  calculate_fanout_go mm availableMemory 249 2 251

/-- `merge_sorter::calculate_parameters`, including every clamp performed by
the source (`m3`/`m4` raised to the memory actually needed, `finalFanout`
capped by `fanout`, `m2` raised to hold one item plus one stream, and the
internal report threshold capped by the run length). -/
def calculate_parameters (mm : MemModel) (m2 m3 m4 : Nat) : sort_parameters :=
  let fanout := calculate_fanout mm m3
  let m3 := if fanout_memory_usage mm fanout > m3 then fanout_memory_usage mm fanout else m3
  let finalFanout0 := calculate_fanout mm m4
  let finalFanout := if finalFanout0 > fanout then fanout else finalFanout0
  let m4 := if fanout_memory_usage mm finalFanout > m4 then fanout_memory_usage mm finalFanout else m4
  let streamMemory := mm.streamUsage
  let tempFileMemory := 2 * fanout * mm.tempFileSize
  let min_m2 := mm.itemSize + streamMemory + tempFileMemory
  let m2 := if m2 < min_m2 then min_m2 else m2
  let runLength := (m2 - streamMemory - tempFileMemory) / mm.itemSize
  let threshold0 := (min m2 (min m3 m4) - tempFileMemory) / mm.itemSize
  let internalReportThreshold := if threshold0 > runLength then runLength else threshold0
  { runLength := runLength
    internalReportThreshold := internalReportThreshold
    fanout := fanout
    finalFanout := finalFanout
    memoryPhase2 := m2
    memoryPhase3 := m3
    memoryPhase4 := m4 }

/-! ## Merge sorter: state and operations

The state of a `merge_sorter<T, pred_t>`.  `m_runFiles` maps a file index
to the item sequence stored in that temp file (modelled from the spec:
`file_stream` is a seekable item sequence; opening for write seeks to the
end and appends, `temp_file::free` truncates).  `m_currentRunItems` holds
the valid prefix of the run buffer (so `m_currentRunItemCount` is its
length) and `m_runBufferCapacity` the allocated size of that buffer.
`m_mergerStreams` is the merge heap's per-stream remaining input. -/
@[ext]
structure merge_sorter (α : Type _) where
  p : sort_parameters
  m_parametersSet : Bool
  m_runFiles : Nat → List α
  m_finishedRuns : Nat
  m_currentRunItems : List α
  m_runBufferCapacity : Nat
  m_reportInternal : Bool
  m_itemsPulled : Nat
  pull_prepared : Bool
  m_mergerStreams : List (List α)

namespace merge_sorter

variable {α : Type _} (le : α → α → Bool)

/-- The constructor: parameters unset, pull not prepared; the remaining
members are defaulted (uninitialized in the source). -/
def mk0 : merge_sorter α where
  p := { runLength := 0, internalReportThreshold := 0, fanout := 0, finalFanout := 0 }
  m_parametersSet := false
  m_runFiles := fun _ => []
  m_finishedRuns := 0
  m_currentRunItems := []
  m_runBufferCapacity := 0
  m_reportInternal := false
  m_itemsPulled := 0
  pull_prepared := false
  m_mergerStreams := []

/-- `merge_sorter::set_parameters`: set run length and fanout manually. -/
def set_parameters (s : merge_sorter α) (runLength fanout : Nat) : merge_sorter α :=
  { s with
    p := { s.p with
           runLength := runLength, internalReportThreshold := runLength,
           fanout := fanout, finalFanout := fanout }
    m_parametersSet := true }

/-- `merge_sorter::set_available_memory(m2, m3, m4)`. -/
def set_available_memory (s : merge_sorter α) (mm : MemModel) (m2 m3 m4 : Nat) :
    merge_sorter α :=
  { s with p := calculate_parameters mm m2 m3 m4, m_parametersSet := true }

/-- `merge_sorter::begin`: resize the run buffer to `runLength` items (the
valid prefix becomes empty), resize the file bank, reset the counters. -/
def begin (s : merge_sorter α) : Except TpError (merge_sorter α) := do
  tp_assert s.m_parametersSet "Parameters not set"
  pure { s with
         m_currentRunItems := []
         m_runBufferCapacity := s.p.runLength
         m_finishedRuns := 0 }

/-- `merge_sorter::sort_current_run`: sort the valid prefix of the run
buffer by the comparator. -/
def sort_current_run (s : merge_sorter α) : merge_sorter α :=
  { s with m_currentRunItems := sortLe le s.m_currentRunItems }

/-- `merge_sorter::open_run_file_write` followed by the write loop of
`empty_current_run`/`merge_runs`: the target file is truncated if this is
the first write round at this level (`runNumber < fanout`), then the items
are appended at the end. -/
def write_run (files : Nat → List α) (fanout mergeLevel runNumber : Nat)
    (items : List α) : Nat → List α :=
  let idx := run_file_index fanout mergeLevel runNumber
  let base := if runNumber < fanout then [] else files idx
  Function.update files idx (base ++ items)

/-- `merge_sorter::empty_current_run`: write the current run to level 0 run
number `m_finishedRuns`, then clear the buffer and count the run. -/
def empty_current_run (s : merge_sorter α) : merge_sorter α :=
  { s with
    m_runFiles := write_run s.m_runFiles s.p.fanout 0 s.m_finishedRuns s.m_currentRunItems
    m_currentRunItems := []
    m_finishedRuns := s.m_finishedRuns + 1 }

/-- `merge_sorter::push`: flush the run buffer when it is full, then store
the item at the end of the valid prefix.  The store is in bounds only when
the buffer has spare capacity (out of bounds is `invalidAccess`). -/
def push (s : merge_sorter α) (item : α) : Except TpError (merge_sorter α) := do
  tp_assert s.m_parametersSet "Parameters not set"
  let s :=
    if s.m_currentRunItems.length ≥ s.p.runLength then
      empty_current_run (sort_current_run le s)
    else s
  if s.m_currentRunItems.length < s.m_runBufferCapacity then
    pure { s with m_currentRunItems := s.m_currentRunItems ++ [item] }
  else
    throw TpError.invalidAccess

/-- `merge_sorter::end`: sort the residual buffer; report internally when no
run was spilled and the residue fits the threshold, otherwise spill the
residue as one more run and release the buffer. -/
def end_ (s : merge_sorter α) : Except TpError (merge_sorter α) := do
  tp_assert s.m_parametersSet "Parameters not set"
  let s := sort_current_run le s
  if s.m_finishedRuns = 0 ∧ s.m_currentRunItems.length ≤ s.p.internalReportThreshold then
    pure { s with m_reportInternal := true, m_itemsPulled := 0 }
  else
    pure { empty_current_run s with m_reportInternal := false, m_runBufferCapacity := 0 }

/-- `merge_sorter::open_run_file_read`: open the file holding the given run
and seek to item offset `run_length(level) · (runNumber / fanout)`; the
result is the file's item sequence from that offset on. -/
def open_run_file_read (s : merge_sorter α) (mergeLevel runNumber : Nat) : List α :=
  let idx := run_file_index s.p.fanout mergeLevel runNumber
  (s.m_runFiles idx).drop
    (calculate_run_length s.p.runLength s.p.fanout mergeLevel * (runNumber / s.p.fanout))

/-- `merge_sorter::initialize_merger`: open runs `runNumber` to
`runNumber + runCount - 1` of `mergeLevel` and reset the merge heap with
run length `run_length(mergeLevel)` (each stream yields at most that many
items). -/
def initialize_merger (s : merge_sorter α) (mergeLevel runNumber runCount : Nat) :
    merge_sorter α :=
  let runLength := calculate_run_length s.p.runLength s.p.fanout mergeLevel
  { s with
    m_mergerStreams :=
      (List.range runCount).map fun i =>
        (open_run_file_read s mergeLevel (runNumber + i)).take runLength }

/-- `merge_sorter::merge_runs`: merge `runCount` runs of `mergeLevel`
starting at `runNumber` into run `runNumber / fanout` of the next level;
returns the run number written. -/
def merge_runs (s : merge_sorter α) (mergeLevel runNumber runCount : Nat) :
    Nat × merge_sorter α :=
  let s := initialize_merger s mergeLevel runNumber runCount
  let nextRunNumber := runNumber / s.p.fanout
  let out := kmerge le s.m_mergerStreams
  (nextRunNumber,
   { s with
     m_runFiles := write_run s.m_runFiles s.p.fanout (mergeLevel + 1) nextRunNumber out
     m_mergerStreams := [] })

/-- The `for (i = 0; i < runCount; i += fanout)` loop of
`merge_sorter::prepare_pull`, one merge level: merge successive groups of up
to `fanout` consecutive runs of `mergeLevel` into single runs of the next
level, counting the groups.  The fuel stands for the loop's termination
(at most `runCount` rounds when `fanout ≥ 1`). -/
def merge_level_go (mergeLevel runCount : Nat) :
    Nat → Nat → Nat → merge_sorter α → Nat × merge_sorter α
  | 0, _, newRunCount, s => (newRunCount, s)
  | fuel + 1, i, newRunCount, s =>
    if i < runCount then
      let n := min (runCount - i) s.p.fanout
      let s' := (merge_runs le s mergeLevel i n).2
      merge_level_go mergeLevel runCount fuel (i + s'.p.fanout) (newRunCount + 1) s'
    else (newRunCount, s)

/-- One iteration of the `while (runCount > fanout)` loop of
`merge_sorter::prepare_pull`: returns the new run count and state. -/
def merge_level (s : merge_sorter α) (mergeLevel runCount : Nat) :
    Nat × merge_sorter α :=
  merge_level_go le mergeLevel runCount runCount 0 0 s

/-- The `while (runCount > fanout)` loop of `merge_sorter::prepare_pull`;
returns the final merge level, the run count there, and the state.  The
fuel stands for the loop's termination (the run count shrinks every round
when `fanout ≥ 2`). -/
def prepare_pull_go : Nat → Nat → Nat → merge_sorter α → Nat × Nat × merge_sorter α
  | 0, mergeLevel, runCount, s => (mergeLevel, runCount, s)
  | fuel + 1, mergeLevel, runCount, s =>
    if runCount > s.p.fanout then
      let r := merge_level le s mergeLevel runCount
      prepare_pull_go fuel (mergeLevel + 1) r.1 r.2
    else (mergeLevel, runCount, s)

/-- `merge_sorter::initialize_final_merger`: if the surviving run count
exceeds `finalFanout`, first merge the trailing
`runCount - (finalFanout - 1)` runs (starting at run `finalFanout - 1`)
into one run of the next level, then reset the merge heap over the
`finalFanout - 1` leading short runs plus that long run, all bounded by the
next level's run length; otherwise reset it over the `runCount` runs of the
final level. -/
def initialize_final_merger (s : merge_sorter α) (finalMergeLevel runCount : Nat) :
    merge_sorter α :=
  if runCount > s.p.finalFanout then
    let i := s.p.finalFanout - 1
    let n := runCount - (s.p.finalFanout - 1)
    let r := merge_runs le s finalMergeLevel i n
    let runNumber := r.1
    let s1 := r.2
    let runLength := calculate_run_length s1.p.runLength s1.p.fanout (finalMergeLevel + 1)
    { s1 with
      m_mergerStreams :=
        ((List.range (s1.p.finalFanout - 1)).map fun j =>
          (open_run_file_read s1 finalMergeLevel j).take runLength)
        ++ [(open_run_file_read s1 (finalMergeLevel + 1) runNumber).take runLength] }
  else
    initialize_merger s finalMergeLevel 0 runCount

/-- `merge_sorter::prepare_pull`: run the merge-level loop from level 0 on
the `m_finishedRuns` formed runs, initialize the final merger, and mark
pulling prepared. -/
def prepare_pull (s : merge_sorter α) : merge_sorter α :=
  let r := prepare_pull_go le s.m_finishedRuns 0 s.m_finishedRuns s
  { initialize_final_merger le r.2.2 r.1 r.2.1 with pull_prepared := true }

/-- `merge_sorter::calc`: perform phase 3 unless reporting internally. -/
def calc_ (s : merge_sorter α) : Except TpError (merge_sorter α) := do
  tp_assert s.m_parametersSet "Parameters not set"
  if !s.m_reportInternal then pure (prepare_pull le s)
  else pure { s with pull_prepared := true }

/-- `merge_sorter::can_pull`: in internal mode compare the items-pulled
counter with the buffered item count; otherwise ask the merge heap. -/
def can_pull (s : merge_sorter α) : Except TpError Bool := do
  tp_assert s.pull_prepared "Pull not prepared"
  if s.m_reportInternal then
    pure (decide (s.m_itemsPulled < s.m_currentRunItems.length))
  else
    pure (popMin le s.m_mergerStreams).isSome

/-- `merge_sorter::pull`: in internal mode return the next buffered item
(releasing the buffer once exhausted); otherwise pull from the merge heap. -/
def pull (s : merge_sorter α) : Except TpError (α × merge_sorter α) := do
  tp_assert s.pull_prepared "Pull not prepared"
  if s.m_reportInternal ∧ s.m_itemsPulled < s.m_currentRunItems.length then
    match s.m_currentRunItems.get? s.m_itemsPulled with
    | some el =>
      let s' := { s with m_itemsPulled := s.m_itemsPulled + 1 }
      let s' :=
        if s'.m_itemsPulled < s'.m_currentRunItems.length then s'
        else { s' with m_currentRunItems := [], m_runBufferCapacity := 0 }
      pure (el, s')
    | none => throw TpError.invalidAccess
  else
    match popMin le s.m_mergerStreams with
    | some (a, ss') => pure (a, { s with m_mergerStreams := ss' })
    | none => throw TpError.invalidAccess

/-- Push a whole list of items during phase 2. -/
def pushAll (s : merge_sorter α) (xs : List α) : Except TpError (merge_sorter α) :=
  xs.foldlM (push le) s

/-- Pull while `can_pull` reports true (fuel-bounded loop). -/
def pullAllF : Nat → merge_sorter α → Except TpError (List α)
  | 0, _ => pure []
  | fuel + 1, s => do
    let b ← can_pull le s
    if b then do
      let r ← pull le s
      let rest ← pullAllF fuel r.2
      pure (r.1 :: rest)
    else pure []

/-- The full sorter protocol on input `xs` with manually set parameters:
`set_parameters`, `begin`, the pushes, `end`, `calc`, then pulling while
`can_pull`. -/
def run_sorter (runLength fanout : Nat) (xs : List α) : Except TpError (List α) := do
  let s0 := set_parameters (mk0 (α := α)) runLength fanout
  let s1 ← begin s0
  let s2 ← pushAll le s1 xs
  let s3 ← end_ le s2
  let s4 ← calc_ le s3
  pullAllF le (xs.length + 1) s4

end merge_sorter

/-! ## Infrastructure for the correctness proofs -/

instance {ε β : Type _} [DecidableEq ε] [DecidableEq β] : DecidableEq (Except ε β) := fun x y =>
  match x, y with
  | .ok a, .ok b =>
    if h : a = b then isTrue (by rw [h]) else isFalse (by intro hh; cases hh; exact h rfl)
  | .ok _, .error _ => isFalse (by intro hh; cases hh)
  | .error _, .ok _ => isFalse (by intro hh; cases hh)
  | .error e, .error f =>
    if h : e = f then isTrue (by rw [h]) else isFalse (by intro hh; cases hh; exact h rfl)

theorem sortLe_length (le : α → α → Bool) (l : List α) :
    (sortLe le l).length = l.length :=
  (sortLe_perm le l).length_eq

/-- The contents of the bank of runs congruent to `c` modulo `fanout`,
starting the run numbering at `i`: the concatenation, in run order, of the
runs whose absolute number is `≡ c (mod fanout)`. -/
def bankFrom (f c : Nat) : Nat → List (List α) → List α
  | _, [] => []
  | i, r :: rest => (if i % f = c then r else []) ++ bankFrom f c (i + 1) rest

/-- The contents of temp file `(level % 2) * fanout + c` once the runs `R`
of a level have been written: runs `c, c + fanout, c + 2·fanout, …`
concatenated in order. -/
def bank (f c : Nat) (R : List (List α)) : List α := bankFrom f c 0 R

theorem bankFrom_append_split (f c i : Nat) (A B : List (List α)) :
    bankFrom f c i (A ++ B) = bankFrom f c i A ++ bankFrom f c (i + A.length) B := by
  induction A generalizing i with
  | nil => simp [bankFrom]
  | cons s A ih =>
    simp only [List.cons_append, List.append_eq, bankFrom, List.length_cons]
    rw [ih (i + 1), List.append_assoc,
        show i + 1 + A.length = i + (A.length + 1) by omega]

theorem bankFrom_append (f c i : Nat) (R : List (List α)) (r : List α) :
    bankFrom f c i (R ++ [r])
      = bankFrom f c i R ++ (if (i + R.length) % f = c then r else []) := by
  rw [bankFrom_append_split]
  simp [bankFrom]

theorem bankFrom_eq_nil (f c i : Nat) (R : List (List α))
    (h : ∀ j, j < R.length → (i + j) % f ≠ c) : bankFrom f c i R = [] := by
  induction R generalizing i with
  | nil => rfl
  | cons s R ih =>
    simp only [bankFrom]
    have h0 : i % f ≠ c := by simpa using h 0 (by simp)
    rw [if_neg h0, List.nil_append]
    exact ih (i + 1) fun j hj => by
      have h2 := h (j + 1) (by simp only [List.length_cons]; omega)
      rw [show i + 1 + j = i + (j + 1) by omega]
      exact h2

theorem bankFrom_shift (f c i : Nat) (R : List (List α)) :
    bankFrom f c (i + f) R = bankFrom f c i R := by
  induction R generalizing i with
  | nil => rfl
  | cons s R ih =>
    simp only [bankFrom, Nat.add_mod_right]
    rw [show i + f + 1 = (i + 1) + f by omega, ih (i + 1)]

theorem bankFrom_small (f c : Nat) (hc : c < f) :
    ∀ (R : List (List α)) (i : Nat), i + R.length ≤ f → i ≤ c →
      bankFrom f c i R = if c - i < R.length then R.getD (c - i) [] else [] := by
  intro R
  induction R with
  | nil => intro i _ _; simp [bankFrom]
  | cons s R ih =>
    intro i hle hic
    simp only [bankFrom, List.length_cons]
    have hif : i % f = i := Nat.mod_eq_of_lt (by omega)
    rw [hif]
    by_cases hicx : i = c
    · rw [if_pos hicx]
      have hnil : bankFrom f c (i + 1) R = [] := by
        refine bankFrom_eq_nil f c (i + 1) R fun j hj => ?_
        have hm : (i + 1 + j) % f = i + 1 + j := Nat.mod_eq_of_lt (by
          simp only [List.length_cons] at hle
          omega)
        omega
      rw [hnil, List.append_nil, if_pos (by omega)]
      rw [show c - i = 0 by omega]
      simp
    · rw [if_neg hicx, List.nil_append]
      rw [ih (i + 1) (by simp only [List.length_cons] at hle; omega) (by omega)]
      have hci : c - i = (c - (i + 1)) + 1 := by omega
      by_cases hlt : c - (i + 1) < R.length
      · rw [if_pos hlt, if_pos (by omega), hci]
        simp
      · rw [if_neg hlt, if_neg (by omega)]

theorem bank_small (f c : Nat) (hc : c < f) (R : List (List α)) (hR : R.length ≤ f) :
    bank f c R = if c < R.length then R.getD c [] else [] := by
  simpa using bankFrom_small f c hc R 0 (by omega) (by omega)

/-- Peeling one round of runs off a bank: the bank of `c` is run `c` (when
it exists) followed by the bank of `c` among the runs past the first
`fanout`. -/
theorem bank_eq_cons (f c : Nat) (hc : c < f) (R : List (List α)) :
    bank f c R = R.getD c [] ++ bank f c (R.drop f) := by
  by_cases hR : R.length ≤ f
  · rw [bank_small f c hc R hR, List.drop_eq_nil_of_le hR]
    by_cases h : c < R.length
    · rw [if_pos h]
      simp [bank, bankFrom]
    · rw [if_neg h, List.getD_eq_getElem?_getD, List.getElem?_eq_none (by omega)]
      simp [bank, bankFrom]
  · have hsplit : R = R.take f ++ R.drop f := (List.take_append_drop f R).symm
    have hlen : (R.take f).length = f := by
      rw [List.length_take]; omega
    conv_lhs => rw [bank, hsplit, bankFrom_append_split, hlen]
    rw [show bankFrom f c (0 + f) (R.drop f) = bankFrom f c 0 (R.drop f) by
          simpa using bankFrom_shift f c 0 (R.drop f)]
    have htake : bankFrom f c 0 (R.take f) = (R.take f).getD c [] := by
      rw [bankFrom_small f c hc (R.take f) 0 (by omega) (by omega)]
      simp [hlen, hc]
    rw [htake]
    congr 1
    rw [List.getD_eq_getElem?_getD, List.getD_eq_getElem?_getD,
        List.getElem?_take, if_pos hc]

/-- `FullLens rl R`: every run of the level has exactly `rl` items except
the last, which is nonempty and has at most `rl`. -/
def FullLens (rl : Nat) : List (List α) → Prop
  | [] => True
  | [r] => 0 < r.length ∧ r.length ≤ rl
  | r :: s :: rest => r.length = rl ∧ FullLens rl (s :: rest)

theorem FullLens_tail (rl : Nat) (r : List α) (R : List (List α))
    (h : FullLens rl (r :: R)) : FullLens rl R := by
  cases R with
  | nil => trivial
  | cons s rest => exact h.2

theorem FullLens_mem (rl : Nat) (R : List (List α)) (h : FullLens rl R)
    (l : List α) (hl : l ∈ R) : l.length ≤ rl := by
  induction R with
  | nil => simp at hl
  | cons r R ih =>
    rcases List.mem_cons.1 hl with rfl | hl
    · cases R with
      | nil => exact h.2
      | cons s rest => exact h.1.le
    · exact ih (FullLens_tail rl r R h) hl

theorem FullLens_mem_pos (rl : Nat) (hrl : 1 ≤ rl) (R : List (List α))
    (h : FullLens rl R) (l : List α) (hl : l ∈ R) : 0 < l.length := by
  induction R with
  | nil => simp at hl
  | cons r R ih =>
    rcases List.mem_cons.1 hl with rfl | hl
    · cases R with
      | nil => exact h.1
      | cons s rest => have := h.1; omega
    · exact ih (FullLens_tail rl r R h) hl

theorem FullLens_getD (rl : Nat) (R : List (List α)) (h : FullLens rl R)
    (i : Nat) (hi : i + 1 < R.length) : (R.getD i []).length = rl := by
  induction R generalizing i with
  | nil => simp at hi
  | cons r R ih =>
    cases i with
    | zero =>
      cases R with
      | nil => simp at hi
      | cons s rest => simpa using h.1
    | succ i =>
      simp only [List.getD_cons_succ]
      exact ih (FullLens_tail rl r R h) i (by simp at hi; omega)

theorem FullLens_drop (rl : Nat) (R : List (List α)) (h : FullLens rl R)
    (k : Nat) : FullLens rl (R.drop k) := by
  induction k with
  | zero => simpa using h
  | succ k ih =>
    rw [← List.drop_drop]
    cases hd : R.drop k with
    | nil => exact trivial
    | cons r rest => simpa using FullLens_tail rl r rest (hd ▸ ih)

/-- The read-back property of the run-file layout: if the bank files hold
the runs of a level whose lengths satisfy `FullLens rl`, then dropping
`rl · (r / f)` items of the bank of `r mod f` and taking `rl` items yields
exactly run `r`. -/
theorem bank_readback (f rl : Nat) (hf : 1 ≤ f) :
    ∀ (r : Nat) (R : List (List α)), r < R.length → FullLens rl R →
      ((bank f (r % f) R).drop (rl * (r / f))).take rl = R.getD r [] := by
  intro r
  induction r using Nat.strong_induction_on with
  | _ r ih =>
    intro R hr hfull
    by_cases hrf : r < f
    · have hmod : r % f = r := Nat.mod_eq_of_lt hrf
      have hdiv : r / f = 0 := Nat.div_eq_of_lt hrf
      rw [hmod, hdiv, Nat.mul_zero, List.drop_zero, bank_eq_cons f r hrf R]
      by_cases hlast : r + 1 < R.length
      · have hfl : (R.getD r []).length = rl := FullLens_getD rl R hfull r hlast
        rw [List.take_left' hfl]
      · have hRf : R.length ≤ f := by omega
        rw [List.drop_eq_nil_of_le hRf]
        have : bank f r ([] : List (List α)) = [] := rfl
        rw [this, List.append_nil]
        have hmem : R.getD r [] ∈ R := by
          rw [List.getD_eq_getElem?_getD, List.getElem?_eq_getElem (by omega),
              Option.getD_some]
          exact List.getElem_mem _
        exact List.take_of_length_le (FullLens_mem rl R hfull _ hmem)
    · have hrf' : f ≤ r := by omega
      have hc : r % f < f := Nat.mod_lt _ (by omega)
      rw [bank_eq_cons f (r % f) hc R]
      have hcfull : ((R.getD (r % f) []).length = rl) := by
        refine FullLens_getD rl R hfull (r % f) ?_
        have : r % f < f := hc
        omega
      have hdiv : r / f = (r - f) / f + 1 := Nat.div_eq_sub_div (by omega) hrf'
      have hdrop : rl * (r / f) = (R.getD (r % f) []).length + rl * ((r - f) / f) := by
        rw [hcfull, hdiv]; ring
      rw [hdrop, List.drop_append]
      have hmod : (r - f) % f = r % f := by
        conv_rhs => rw [show r = f + (r - f) by omega]
        rw [Nat.add_mod_left]
      have hlen' : r - f < (R.drop f).length := by
        rw [List.length_drop]; omega
      have := ih (r - f) (by omega) (R.drop f) hlen' (FullLens_drop rl R hfull f)
      rw [hmod] at this
      rw [this, List.getD_eq_getElem?_getD, List.getD_eq_getElem?_getD,
          List.getElem?_drop, show f + (r - f) = r by omega]

/-- The bank files of a level hold the runs `R` written so far at that
level: for every bank `c` that already received a run, the file at index
`(level % 2) * fanout + c` holds exactly the runs of that bank. -/
def FilesHold (f : Nat) (files : Nat → List α) (level : Nat)
    (R : List (List α)) : Prop :=
  ∀ c, c < f → c < R.length → files ((level % 2) * f + c) = bank f c R

theorem FilesHold_nil (f : Nat) (files : Nat → List α) (level : Nat) :
    FilesHold f files level ([] : List (List α)) := by
  intro c _ hc
  simp at hc

/-- Writing the next run of a level (run number `R.length`) extends the
bank invariant: the first-round truncation and the later-round append both
land the run at the end of its bank. -/
theorem FilesHold_write (f : Nat) (hf : 1 ≤ f) (files : Nat → List α)
    (level : Nat) (R : List (List α)) (hold : FilesHold f files level R)
    (run : List α) :
    FilesHold f (merge_sorter.write_run files f level R.length run) level (R ++ [run]) := by
  intro c hc hcR
  unfold merge_sorter.write_run run_file_index
  by_cases hcc : c = R.length % f
  · rw [hcc, Function.update_same]
    have hbank : bank f (R.length % f) (R ++ [run])
        = bank f (R.length % f) R ++ run := by
      rw [bank, bankFrom_append]
      simp [bank]
    rw [hbank]
    by_cases hsmall : R.length < f
    · rw [if_pos hsmall]
      have hmod : R.length % f = R.length := Nat.mod_eq_of_lt hsmall
      have : bank f (R.length % f) R = [] := by
        rw [hmod, bank_small f R.length (by omega) R (by omega)]
        simp
      rw [this]
    · rw [if_neg hsmall]
      have hcf : R.length % f < f := Nat.mod_lt _ (by omega)
      rw [hold (R.length % f) hcf (by omega)]
  · have hne : (level % 2) * f + c ≠ (level % 2) * f + R.length % f := by
      omega
    rw [Function.update_noteq hne]
    have hcR' : c < R.length := by
      rcases Nat.lt_or_ge c R.length with h | h
      · exact h
      · exfalso
        have : c = R.length := by
          simp only [List.length_append, List.length_singleton] at hcR
          omega
        apply hcc
        rw [← this, Nat.mod_eq_of_lt hc]
    rw [hold c hc hcR']
    conv_rhs => rw [bank, bankFrom_append]
    rw [Nat.zero_add, if_neg fun h => hcc h.symm, List.append_nil]
    rfl

/-- Writing a run at a level of the other parity leaves a level's bank
invariant untouched: the two parity banks use disjoint file indices. -/
theorem FilesHold_write_other (f : Nat) (hf : 1 ≤ f) (files : Nat → List α)
    (level level' : Nat) (hpar : level % 2 ≠ level' % 2) (r : Nat)
    (run : List α) (R : List (List α)) (hold : FilesHold f files level R) :
    FilesHold f (merge_sorter.write_run files f level' r run) level R := by
  intro c hc hcR
  unfold merge_sorter.write_run run_file_index
  have hrf : r % f < f := Nat.mod_lt _ (by omega)
  have hne : (level % 2) * f + c ≠ (level' % 2) * f + r % f := by
    rcases Nat.mod_two_eq_zero_or_one level with h0 | h0 <;>
      rcases Nat.mod_two_eq_zero_or_one level' with h1 | h1 <;>
        rw [h0, h1] at hpar ⊢ <;> simp at hpar ⊢ <;> omega
  rw [Function.update_noteq hne]
  exact hold c hc hcR

/-- `open_run_file_read` followed by taking the run length recovers run `r`
of a level whose runs are held by the bank files. -/
theorem open_run_file_read_correct (s : merge_sorter α) (L r : Nat)
    (R : List (List α)) (hf : 1 ≤ s.p.fanout)
    (hold : FilesHold s.p.fanout s.m_runFiles L R) (hr : r < R.length)
    (hfull : FullLens (calculate_run_length s.p.runLength s.p.fanout L) R) :
    (merge_sorter.open_run_file_read s L r).take
        (calculate_run_length s.p.runLength s.p.fanout L) = R.getD r [] := by
  simp only [merge_sorter.open_run_file_read, run_file_index]
  have hcf : r % s.p.fanout < s.p.fanout := Nat.mod_lt _ (by omega)
  rw [hold (r % s.p.fanout) hcf (by
        have := Nat.mod_le r s.p.fanout
        omega)]
  exact bank_readback s.p.fanout _ hf r R hr hfull

/-- When a level has at most `fanout` runs, every bank holds a single run
and `open_run_file_read` recovers it whole. -/
theorem open_run_file_read_single (s : merge_sorter α) (L r : Nat)
    (R : List (List α)) (_hf : 1 ≤ s.p.fanout)
    (hold : FilesHold s.p.fanout s.m_runFiles L R) (hr : r < R.length)
    (hRf : R.length ≤ s.p.fanout) :
    merge_sorter.open_run_file_read s L r = R.getD r [] := by
  simp only [merge_sorter.open_run_file_read, run_file_index]
  have hrlt : r < s.p.fanout := by omega
  have hmod : r % s.p.fanout = r := Nat.mod_eq_of_lt hrlt
  have hdiv : r / s.p.fanout = 0 := Nat.div_eq_of_lt hrlt
  rw [hmod, hdiv, Nat.mul_zero, List.drop_zero, hold r hrlt hr,
      bank_small s.p.fanout r hrlt R hRf, if_pos hr]

/-! ## Grouping a level's runs into merge groups -/

/-- The number of groups of up to `f` runs formed out of `n` runs. -/
def numChunks (f n : Nat) : Nat := (n + f - 1) / f

/-- Fuel-indexed grouping of a list into consecutive chunks of `f`. -/
def chunksF (f : Nat) {β : Type _} : Nat → List β → List (List β)
  | 0, _ => []
  | _, [] => []
  | fuel + 1, l => l.take f :: chunksF f fuel (l.drop f)

/-- Consecutive chunks of `f` elements (the last may be shorter). -/
def chunks (f : Nat) {β : Type _} (l : List β) : List (List β) :=
  chunksF f l.length l

theorem chunksF_nil (f : Nat) {β : Type _} (fuel : Nat) :
    chunksF f fuel ([] : List β) = [] := by
  cases fuel <;> rfl

theorem chunksF_eq (f : Nat) (hf : 1 ≤ f) {β : Type _} :
    ∀ (fuel fuel' : Nat) (l : List β), l.length ≤ fuel → l.length ≤ fuel' →
      chunksF f fuel l = chunksF f fuel' l := by
  intro fuel
  induction fuel with
  | zero =>
    intro fuel' l hl _
    have : l = [] := List.length_eq_zero.1 (by omega)
    rw [this, chunksF_nil, chunksF_nil]
  | succ fuel ih =>
    intro fuel' l hl hl'
    cases l with
    | nil => rw [chunksF_nil, chunksF_nil]
    | cons x xs =>
      cases fuel' with
      | zero => simp at hl'
      | succ fuel' =>
        simp only [chunksF]
        rw [ih fuel' ((x :: xs).drop f)
              (by rw [List.length_drop]; simp at hl ⊢; omega)
              (by rw [List.length_drop]; simp at hl' ⊢; omega)]

theorem chunks_cons (f : Nat) (hf : 1 ≤ f) {β : Type _} (l : List β)
    (hl : l ≠ []) : chunks f l = l.take f :: chunks f (l.drop f) := by
  unfold chunks
  cases hlen : l.length with
  | zero => exact absurd (List.length_eq_zero.1 hlen) hl
  | succ n =>
    cases l with
    | nil => simp at hlen
    | cons x xs =>
      simp only [chunksF]
      rw [chunksF_eq f hf n ((x :: xs).drop f).length ((x :: xs).drop f)
            (by rw [List.length_drop]; simp at hlen ⊢; omega) (Nat.le_refl _)]

theorem numChunks_zero (f : Nat) (hf : 1 ≤ f) : numChunks f 0 = 0 := by
  unfold numChunks
  rw [Nat.div_eq_of_lt]
  omega

theorem numChunks_step (f : Nat) (hf : 1 ≤ f) (n : Nat) (hn : 1 ≤ n) :
    numChunks f n = numChunks f (n - f) + 1 := by
  unfold numChunks
  rcases Nat.lt_or_ge n f with h | h
  · have h1 : (n + f - 1) / f = 1 := by
      rw [Nat.div_eq_sub_div (by omega) (by omega),
          show n + f - 1 - f = n - 1 by omega, Nat.div_eq_of_lt (by omega)]
    rw [h1, show n - f = 0 by omega, Nat.div_eq_of_lt (by omega)]
  · rw [Nat.div_eq_sub_div (by omega) (by omega : f ≤ n + f - 1),
        show n + f - 1 - f = n - f + f - 1 by omega]

theorem numChunks_pos (f : Nat) (hf : 1 ≤ f) (n : Nat) (hn : 1 ≤ n) :
    1 ≤ numChunks f n := by
  rw [numChunks_step f hf n hn]
  omega

theorem numChunks_le (f : Nat) (hf : 1 ≤ f) (n : Nat) (hn : n ≤ f) :
    numChunks f n ≤ 1 := by
  unfold numChunks
  rw [Nat.div_le_iff_le_mul_add_pred (by omega)]
  omega

theorem numChunks_lt (f : Nat) (hf : 2 ≤ f) (n : Nat) (hn : f < n) :
    numChunks f n < n := by
  unfold numChunks
  rw [Nat.div_lt_iff_lt_mul (by omega)]
  have : 2 * n ≤ n * f := by
    calc 2 * n = n * 2 := by ring
    _ ≤ n * f := Nat.mul_le_mul_left n hf
  omega

theorem chunks_length (f : Nat) (hf : 1 ≤ f) {β : Type _} :
    ∀ (fuel : Nat) (l : List β), l.length ≤ fuel →
      (chunks f l).length = numChunks f l.length := by
  intro fuel
  induction fuel with
  | zero =>
    intro l hl
    have : l = [] := List.length_eq_zero.1 (by omega)
    rw [this]
    simp [chunks, chunksF_nil, numChunks_zero f hf]
  | succ fuel ih =>
    intro l hl
    cases hl0 : l with
    | nil => simp [chunks, chunksF_nil, numChunks_zero f hf]
    | cons x xs =>
      have hpos : 0 < l.length := by rw [hl0]; simp
      rw [← hl0, chunks_cons f hf l (by rw [hl0]; simp), List.length_cons,
          ih (l.drop f) (by rw [List.length_drop]; omega),
          List.length_drop,
          numChunks_step f hf l.length (by omega)]

theorem chunks_flatten (f : Nat) (hf : 1 ≤ f) {β : Type _} :
    ∀ (fuel : Nat) (l : List β), l.length ≤ fuel → (chunks f l).flatten = l := by
  intro fuel
  induction fuel with
  | zero =>
    intro l hl
    have : l = [] := List.length_eq_zero.1 (by omega)
    rw [this]
    rfl
  | succ fuel ih =>
    intro l hl
    cases hl0 : l with
    | nil => rfl
    | cons x xs =>
      have hpos : 0 < l.length := by rw [hl0]; simp
      rw [← hl0, chunks_cons f hf l (by rw [hl0]; simp), List.flatten_cons,
          ih (l.drop f) (by rw [List.length_drop]; omega),
          List.take_append_drop]

theorem chunks_mem_subset (f : Nat) (hf : 1 ≤ f) {β : Type _} :
    ∀ (fuel : Nat) (l : List β) (c : List β), l.length ≤ fuel →
      c ∈ chunks f l → ∀ x ∈ c, x ∈ l := by
  intro fuel
  induction fuel with
  | zero =>
    intro l c hl hc
    have : l = [] := List.length_eq_zero.1 (by omega)
    rw [this] at hc
    simp [chunks, chunksF_nil] at hc
  | succ fuel ih =>
    intro l c hl hc x hx
    cases hl0 : l with
    | nil => rw [hl0] at hc; simp [chunks, chunksF_nil] at hc
    | cons y ys =>
      have hpos : 0 < l.length := by rw [hl0]; simp
      rw [← hl0]
      rw [chunks_cons f hf l (by rw [hl0]; simp)] at hc
      rcases List.mem_cons.1 hc with rfl | hc
      · exact List.mem_of_mem_take hx
      · exact List.mem_of_mem_drop
          (ih (l.drop f) c (by rw [List.length_drop]; omega) hc x hx)

theorem FullLens_take_full (rl : Nat) (R : List (List α)) (hfull : FullLens rl R) :
    ∀ (k : Nat), k < R.length → ∀ l ∈ R.take k, l.length = rl := by
  induction R with
  | nil => intro k hk; simp at hk
  | cons r R ih =>
    intro k hk l hl
    cases k with
    | zero => simp at hl
    | succ k =>
      rw [List.take_succ_cons] at hl
      rcases List.mem_cons.1 hl with rfl | hl
      · cases R with
        | nil => simp at hk
        | cons s rest => exact hfull.1
      · exact ih (FullLens_tail rl r R hfull) k (by simp at hk; omega) l hl

theorem flatten_length_of_full (rl : Nat) (L : List (List α))
    (h : ∀ l ∈ L, l.length = rl) : L.flatten.length = L.length * rl := by
  induction L with
  | nil => simp
  | cons l L ih =>
    rw [List.flatten_cons, List.length_append, h l (by simp),
        ih fun m hm => h m (List.mem_cons_of_mem _ hm), List.length_cons]
    ring

theorem kmerge_length (le : α → α → Bool) (ss : List (List α)) :
    (kmerge le ss).length = ss.flatten.length :=
  (kmerge_perm le ss).length_eq

theorem flatten_length_le (rl : Nat) (R : List (List α)) (hfull : FullLens rl R) :
    R.flatten.length ≤ R.length * rl := by
  induction R with
  | nil => simp
  | cons r R ih =>
    rw [List.flatten_cons, List.length_append, List.length_cons]
    have h1 : r.length ≤ rl := FullLens_mem rl _ hfull r (by simp)
    have h2 := ih (FullLens_tail rl r R hfull)
    calc r.length + R.flatten.length ≤ rl + R.length * rl := by omega
      _ = (R.length + 1) * rl := by ring

/-- The runs produced by merging consecutive groups of `f` runs satisfy the
length discipline of the next level: every merged run is full (`f` times
the previous run length) except the last, which is nonempty and no
longer. -/
theorem FullLens_merged (le : α → α → Bool) (f rl : Nat) (hf : 1 ≤ f)
    (hrl : 1 ≤ rl) :
    ∀ (fuel : Nat) (R : List (List α)), R.length ≤ fuel →
      FullLens rl R → R ≠ [] →
      FullLens (rl * f) ((chunks f R).map (kmerge le)) := by
  intro fuel
  induction fuel with
  | zero =>
    intro R hR hfull hne
    exact absurd (List.length_eq_zero.1 (by omega)) hne
  | succ fuel ih =>
    intro R hR hfull hne
    rw [chunks_cons f hf R hne]
    have hlen1 : (kmerge le (R.take f)).length = (R.take f).flatten.length :=
      kmerge_length le (R.take f)
    by_cases hsmall : R.length ≤ f
    · rw [List.drop_eq_nil_of_le hsmall, chunks, chunksF_nil, List.map_cons,
          List.map_nil]
      refine ⟨?_, ?_⟩
      · rw [hlen1, List.take_of_length_le hsmall]
        rcases List.exists_cons_of_ne_nil hne with ⟨r, R', rfl⟩
        have hrpos : 0 < r.length :=
          FullLens_mem_pos rl hrl _ hfull r (by simp)
        rw [List.flatten_cons, List.length_append]
        omega
      · rw [hlen1, List.take_of_length_le hsmall]
        calc R.flatten.length ≤ R.length * rl := flatten_length_le rl R hfull
          _ ≤ f * rl := Nat.mul_le_mul_right rl hsmall
          _ = rl * f := Nat.mul_comm f rl
    · have hdrop_ne : R.drop f ≠ [] := by
        intro hcon
        have := congrArg List.length hcon
        rw [List.length_drop] at this
        simp at this
        omega
      have htail := ih (R.drop f) (by rw [List.length_drop]; omega)
        (FullLens_drop rl R hfull f) hdrop_ne
      have hfullhead : (kmerge le (R.take f)).length = rl * f := by
        rw [hlen1, flatten_length_of_full rl (R.take f)
              (FullLens_take_full rl R hfull f (by omega)),
            List.length_take, min_eq_left (by omega)]
        ring
      have hch_ne : chunks f (R.drop f) ≠ [] := by
        rw [chunks_cons f hf _ hdrop_ne]
        simp
      rw [List.map_cons]
      rcases hmap : (chunks f (R.drop f)).map (kmerge le) with _ | ⟨m, ms⟩
      · exact absurd (List.map_eq_nil_iff.1 hmap) hch_ne
      · rw [hmap] at htail
        exact ⟨hfullhead, htail⟩

/-- The merged groups of a level hold, in total, a permutation of the
level's items. -/
theorem merged_flatten_perm (le : α → α → Bool) (f : Nat) (hf : 1 ≤ f) :
    ∀ (fuel : Nat) (R : List (List α)), R.length ≤ fuel →
      (((chunks f R).map (kmerge le)).flatten).Perm R.flatten := by
  intro fuel
  induction fuel with
  | zero =>
    intro R hR
    have : R = [] := List.length_eq_zero.1 (by omega)
    rw [this]
    rfl
  | succ fuel ih =>
    intro R hR
    by_cases hne : R = []
    · rw [hne]; rfl
    · rw [chunks_cons f hf R hne, List.map_cons, List.flatten_cons]
      have h1 := kmerge_perm le (R.take f)
      have h2 := ih (R.drop f) (by
        rw [List.length_drop]
        have : 0 < R.length := List.length_pos.2 hne
        omega)
      calc (kmerge le (R.take f) ++ ((chunks f (R.drop f)).map (kmerge le)).flatten).Perm
            ((R.take f).flatten ++ (R.drop f).flatten) := h1.append h2
        _ = (R.take f ++ R.drop f).flatten := (List.flatten_append _ _).symm
        _ = R.flatten := by rw [List.take_append_drop]

/-- Every merged group is sorted. -/
theorem merged_sorted (le : α → α → Bool)
    (htot : ∀ a b, le a b = true ∨ le b a = true)
    (htrans : ∀ a b c, le a b = true → le b c = true → le a c = true)
    (f : Nat) (hf : 1 ≤ f) (R : List (List α)) (hs : ∀ l ∈ R, SortedLe le l) :
    ∀ m ∈ (chunks f R).map (kmerge le), SortedLe le m := by
  intro m hm
  rcases List.mem_map.1 hm with ⟨c, hc, rfl⟩
  exact kmerge_sorted le htot htrans c fun l hl =>
    hs l (chunks_mem_subset f hf R.length R c (Nat.le_refl _) hc l hl)

/-! ## State-level lemmas about the merge phases -/

theorem calculate_run_length_eq (i f : Nat) :
    ∀ L, calculate_run_length i f L = i * f ^ L := by
  intro L
  induction L with
  | zero => simp [calculate_run_length]
  | succ L ih => rw [calculate_run_length, ih, pow_succ, Nat.mul_assoc]

/-- Run length at a level, `runLength · fanout^L`. -/
def RL (p : sort_parameters) (L : Nat) : Nat :=
  calculate_run_length p.runLength p.fanout L

theorem RL_pos (p : sort_parameters) (h1 : 1 ≤ p.runLength) (h2 : 1 ≤ p.fanout)
    (L : Nat) : 1 ≤ RL p L := by
  rw [RL, calculate_run_length_eq]
  exact Nat.mul_pos h1 (Nat.pow_pos h2)

theorem RL_succ (p : sort_parameters) (L : Nat) : RL p (L + 1) = RL p L * p.fanout := rfl

/-- The parameter sanity conditions under which the sorter protocol is
verified; both `set_parameters` (with `runLength ≥ 1`, `fanout ≥ 2`) and
`calculate_parameters` establish them. -/
def ParamsOk (p : sort_parameters) : Prop :=
  1 ≤ p.runLength ∧ 2 ≤ p.fanout ∧ 1 ≤ p.finalFanout ∧ p.finalFanout ≤ p.fanout

/-- The state invariant between merge passes: the bank files hold the runs
`R` of level `L`, their lengths follow the level's run length, and each run
is sorted. -/
def LevelInv (le : α → α → Bool) (p : sort_parameters) (s : merge_sorter α)
    (L : Nat) (R : List (List α)) : Prop :=
  s.p = p ∧ FilesHold p.fanout s.m_runFiles L R ∧ FullLens (RL p L) R ∧
    ∀ l ∈ R, SortedLe le l

theorem range_map_getD {β : Type _} (R : List β) (d : β) (i : Nat) :
    ∀ n, i + n ≤ R.length →
      (List.range n).map (fun k => R.getD (i + k) d) = (R.drop i).take n := by
  intro n
  induction n with
  | zero => intro _; simp
  | succ n ih =>
    intro hn
    rw [List.range_succ, List.map_append, ih (by omega), List.map_singleton,
        List.take_succ, List.getElem?_drop]
    congr 1
    rw [List.getD_eq_getElem?_getD, List.getElem?_eq_getElem (by omega)]
    rfl

theorem take_min_length {β : Type _} (l : List β) (k : Nat) :
    l.take (min l.length k) = l.take k := by
  rcases Nat.le_total k l.length with h | h
  · rw [Nat.min_eq_right h]
  · rw [Nat.min_eq_left h, List.take_of_length_le h,
        List.take_of_length_le (by omega)]

/-- `initialize_merger` loads the merge heap with runs `i … i + n - 1` of
level `L` (each bounded by the level's run length, which recovers the runs
exactly). -/
theorem initialize_merger_streams (p : sort_parameters) (s : merge_sorter α)
    (L : Nat) (R : List (List α)) (i n : Nat) (hf : 1 ≤ p.fanout)
    (hsp : s.p = p) (hold : FilesHold p.fanout s.m_runFiles L R)
    (hfull : FullLens (RL p L) R) (hcover : i + n ≤ R.length) :
    (merge_sorter.initialize_merger s L i n).m_mergerStreams
      = (R.drop i).take n := by
  simp only [merge_sorter.initialize_merger]
  have heach : ∀ k, k < n →
      (merge_sorter.open_run_file_read s L (i + k)).take
        (calculate_run_length s.p.runLength s.p.fanout L) = R.getD (i + k) [] := by
    intro k hk
    exact open_run_file_read_correct s L (i + k) R (by rw [hsp]; omega)
      (by rw [hsp]; exact hold) (by omega) (by rw [hsp]; exact hfull)
  calc (List.range n).map (fun k =>
          (merge_sorter.open_run_file_read s L (i + k)).take
            (calculate_run_length s.p.runLength s.p.fanout L))
      = (List.range n).map (fun k => R.getD (i + k) []) := by
        refine List.map_congr_left fun k hk => heach k (List.mem_range.1 hk)
    _ = (R.drop i).take n := range_map_getD R [] i n hcover

/-- What `merge_runs` does under the level invariant: it merges runs
`i … i+n-1` of level `L` and writes the merged run as run `i / fanout` of
level `L + 1`, touching nothing else. -/
theorem merge_runs_spec (le : α → α → Bool) (p : sort_parameters)
    (hp : ParamsOk p) (s : merge_sorter α) (L : Nat) (R : List (List α))
    (hinv : LevelInv le p s L R) (i n : Nat) (hcover : i + n ≤ R.length) :
    merge_sorter.merge_runs le s L i n =
      (i / p.fanout,
       { s with
         m_runFiles := merge_sorter.write_run s.m_runFiles p.fanout (L + 1)
           (i / p.fanout) (kmerge le ((R.drop i).take n))
         m_mergerStreams := [] }) := by
  obtain ⟨hsp, hold, hfull, hsort⟩ := hinv
  obtain ⟨hprl, hpf, hpff, hpffle⟩ := hp
  have hstreams : (merge_sorter.initialize_merger s L i n).m_mergerStreams
      = (R.drop i).take n :=
    initialize_merger_streams p s L R i n (by omega) hsp hold hfull hcover
  refine Prod.ext ?_ ?_
  · show i / s.p.fanout = i / p.fanout
    rw [hsp]
  · apply merge_sorter.ext
    · rfl
    · rfl
    · show merge_sorter.write_run s.m_runFiles s.p.fanout (L + 1)
        (i / s.p.fanout)
        (kmerge le (merge_sorter.initialize_merger s L i n).m_mergerStreams)
        = merge_sorter.write_run s.m_runFiles p.fanout (L + 1) (i / p.fanout)
          (kmerge le ((R.drop i).take n))
      rw [hsp, hstreams]
    · rfl
    · rfl
    · rfl
    · rfl
    · rfl
    · rfl
    · rfl

/-- The fields of the sorter that the merge passes leave untouched. -/
def SameAux (s s' : merge_sorter α) : Prop :=
  s'.p = s.p ∧ s'.m_finishedRuns = s.m_finishedRuns ∧
  s'.m_currentRunItems = s.m_currentRunItems ∧
  s'.m_runBufferCapacity = s.m_runBufferCapacity ∧
  s'.m_reportInternal = s.m_reportInternal ∧
  s'.m_itemsPulled = s.m_itemsPulled ∧ s'.pull_prepared = s.pull_prepared

theorem SameAux_refl (s : merge_sorter α) : SameAux s s :=
  ⟨rfl, rfl, rfl, rfl, rfl, rfl, rfl⟩

theorem SameAux_trans (s t u : merge_sorter α) (h1 : SameAux s t)
    (h2 : SameAux t u) : SameAux s u := by
  obtain ⟨a1, a2, a3, a4, a5, a6, a7⟩ := h1
  obtain ⟨b1, b2, b3, b4, b5, b6, b7⟩ := h2
  exact ⟨b1.trans a1, b2.trans a2, b3.trans a3, b4.trans a4, b5.trans a5,
    b6.trans a6, b7.trans a7⟩

theorem mod_two_succ_ne (L : Nat) : L % 2 ≠ (L + 1) % 2 := by
  rcases Nat.mod_two_eq_zero_or_one L with h | h <;> omega

/-- The second component of `merge_runs`, as a record update. -/
theorem merge_runs_snd (le : α → α → Bool) (p : sort_parameters)
    (hp : ParamsOk p) (s : merge_sorter α) (L : Nat) (R : List (List α))
    (hinv : LevelInv le p s L R) (i n : Nat) (hcover : i + n ≤ R.length) :
    (merge_sorter.merge_runs le s L i n).2 =
      { s with
        m_runFiles := merge_sorter.write_run s.m_runFiles p.fanout (L + 1)
          (i / p.fanout) (kmerge le ((R.drop i).take n))
        m_mergerStreams := [] } :=
  (congrArg Prod.snd (merge_runs_spec le p hp s L R hinv i n hcover)).trans rfl

/-- The run number returned by `merge_runs`. -/
theorem merge_runs_fst (le : α → α → Bool) (s : merge_sorter α) (L i n : Nat) :
    (merge_sorter.merge_runs le s L i n).1 = i / s.p.fanout := rfl

theorem merge_runs_snd_p (le : α → α → Bool) (s : merge_sorter α) (L i n : Nat) :
    (merge_sorter.merge_runs le s L i n).2.p = s.p := rfl

/-- One pass of the intermediate-merge loop: starting at group `j` (run
`j·fanout`), the loop merges the remaining groups of level `L` into runs
`j, j+1, …` of level `L+1`. -/
theorem merge_level_go_spec (le : α → α → Bool) (p : sort_parameters)
    (hp : ParamsOk p) (L : Nat) (R : List (List α)) :
    ∀ (fuel j : Nat) (s : merge_sorter α) (R' : List (List α)),
      LevelInv le p s L R →
      FilesHold p.fanout s.m_runFiles (L + 1) R' →
      R'.length = j →
      R.length - j * p.fanout ≤ fuel →
      ∃ s', merge_sorter.merge_level_go le L R.length fuel (j * p.fanout) j s
          = (j + numChunks p.fanout (R.length - j * p.fanout), s') ∧
        SameAux s s' ∧
        FilesHold p.fanout s'.m_runFiles L R ∧
        FilesHold p.fanout s'.m_runFiles (L + 1)
          (R' ++ (chunks p.fanout (R.drop (j * p.fanout))).map (kmerge le)) := by
  obtain ⟨hprl, hpf, hpff, hpffle⟩ := hp
  intro fuel
  induction fuel with
  | zero =>
    intro j s R' hinv hold' hlen hfuel
    have hge : R.length ≤ j * p.fanout := by omega
    refine ⟨s, ?_, SameAux_refl s, hinv.2.1, ?_⟩
    · simp only [merge_sorter.merge_level_go]
      rw [show R.length - j * p.fanout = 0 by omega,
          numChunks_zero p.fanout (by omega)]
      rfl
    · rw [List.drop_eq_nil_of_le hge, chunks, chunksF_nil, List.map_nil,
          List.append_nil]
      exact hold'
  | succ fuel ih =>
    intro j s R' hinv hold' hlen hfuel
    obtain ⟨hsp, holdL, hfull, hsort⟩ := hinv
    simp only [merge_sorter.merge_level_go]
    by_cases hguard : j * p.fanout < R.length
    · rw [if_pos hguard, merge_runs_snd_p, hsp]
      have hcover : j * p.fanout + min (R.length - j * p.fanout) p.fanout
          ≤ R.length := by omega
      have hmr2 := merge_runs_snd le p ⟨hprl, hpf, hpff, hpffle⟩ s L R
        ⟨hsp, holdL, hfull, hsort⟩ (j * p.fanout)
        (min (R.length - j * p.fanout) p.fanout) hcover
      rw [hmr2]
      have hdiv : j * p.fanout / p.fanout = j := Nat.mul_div_cancel j (by omega)
      rw [hdiv]
      set out := kmerge le ((R.drop (j * p.fanout)).take
        (min (R.length - j * p.fanout) p.fanout)) with hout_def
      have hout : out = kmerge le ((R.drop (j * p.fanout)).take p.fanout) := by
        rw [hout_def]
        congr 1
        rw [show min (R.length - j * p.fanout) p.fanout
              = min (R.drop (j * p.fanout)).length p.fanout by
            rw [List.length_drop]]
        exact take_min_length _ _
      set s1 : merge_sorter α :=
        { s with
          m_runFiles := merge_sorter.write_run s.m_runFiles p.fanout (L + 1) j out
          m_mergerStreams := [] } with hs1_def
      have hs1p : s1.p = p := hsp
      have hs1filesL : FilesHold p.fanout s1.m_runFiles L R :=
        FilesHold_write_other p.fanout (by omega) s.m_runFiles L (L + 1)
          (mod_two_succ_ne L) _ out R holdL
      have hs1files' : FilesHold p.fanout s1.m_runFiles (L + 1) (R' ++ [out]) := by
        show FilesHold p.fanout
          (merge_sorter.write_run s.m_runFiles p.fanout (L + 1) j out)
          (L + 1) (R' ++ [out])
        rw [← hlen]
        exact FilesHold_write p.fanout (by omega) s.m_runFiles (L + 1) R' hold' out
      have hstep := ih (j + 1) s1 (R' ++ [out])
        ⟨hs1p, hs1filesL, hfull, hsort⟩ hs1files'
        (by rw [List.length_append, hlen]; rfl)
        (by rw [show (j + 1) * p.fanout = j * p.fanout + p.fanout by ring]; omega)
      rw [show (j + 1) * p.fanout = j * p.fanout + p.fanout by ring] at hstep
      obtain ⟨s', hrun, haux, hL, hL1⟩ := hstep
      refine ⟨s', ?_, ?_, hL, ?_⟩
      · rw [hrun]
        refine Prod.ext ?_ rfl
        show j + 1 + numChunks p.fanout (R.length - (j * p.fanout + p.fanout))
            = j + numChunks p.fanout (R.length - j * p.fanout)
        rw [numChunks_step p.fanout (by omega) (R.length - j * p.fanout) (by omega),
            show R.length - j * p.fanout - p.fanout
              = R.length - (j * p.fanout + p.fanout) by omega]
        omega
      · exact SameAux_trans s s1 s' ⟨rfl, rfl, rfl, rfl, rfl, rfl, rfl⟩ haux
      · have hdropne : R.drop (j * p.fanout) ≠ [] := by
          intro hcon
          have := congrArg List.length hcon
          rw [List.length_drop] at this
          simp at this
          omega
        have hdd : (R.drop (j * p.fanout)).drop p.fanout
            = R.drop (j * p.fanout + p.fanout) := by
          rw [List.drop_drop]
        have hchunks : chunks p.fanout (R.drop (j * p.fanout))
            = (R.drop (j * p.fanout)).take p.fanout
              :: chunks p.fanout (R.drop (j * p.fanout + p.fanout)) := by
          rw [chunks_cons p.fanout (by omega) _ hdropne, hdd]
        rw [hchunks, List.map_cons, ← hout,
            show R' ++ out :: (chunks p.fanout
                (R.drop (j * p.fanout + p.fanout))).map (kmerge le)
              = (R' ++ [out]) ++ (chunks p.fanout
                (R.drop (j * p.fanout + p.fanout))).map (kmerge le) by
              rw [List.append_assoc]; rfl]
        exact hL1
    · rw [if_neg hguard]
      have hge : R.length ≤ j * p.fanout := by omega
      refine ⟨s, ?_, SameAux_refl s, holdL, ?_⟩
      · rw [show R.length - j * p.fanout = 0 by omega,
            numChunks_zero p.fanout (by omega)]
        rfl
      · rw [List.drop_eq_nil_of_le hge, chunks, chunksF_nil, List.map_nil,
            List.append_nil]
        exact hold'

/-- One whole level pass: all `R.length` runs of level `L` are merged in
groups of up to `fanout` into the `⌈R.length / fanout⌉` runs of level
`L + 1`. -/
theorem merge_level_spec (le : α → α → Bool)
    (htot : ∀ a b, le a b = true ∨ le b a = true)
    (htrans : ∀ a b c, le a b = true → le b c = true → le a c = true)
    (p : sort_parameters) (hp : ParamsOk p) (s : merge_sorter α) (L : Nat)
    (R : List (List α)) (hinv : LevelInv le p s L R) (hne : R ≠ []) :
    ∃ s', merge_sorter.merge_level le s L R.length
        = (numChunks p.fanout R.length, s') ∧
      SameAux s s' ∧
      LevelInv le p s' (L + 1) ((chunks p.fanout R).map (kmerge le)) := by
  obtain ⟨hprl, hpf, hpff, hpffle⟩ := hp
  have hgo := merge_level_go_spec le p ⟨hprl, hpf, hpff, hpffle⟩ L R R.length 0 s
    [] hinv (FilesHold_nil p.fanout s.m_runFiles (L + 1)) rfl
    (by simp)
  rw [show (0 : Nat) * p.fanout = 0 by ring] at hgo
  obtain ⟨s', hrun, haux, hL, hL1⟩ := hgo
  refine ⟨s', ?_, haux, ?_⟩
  · show merge_sorter.merge_level_go le L R.length R.length 0 0 s = _
    rw [hrun]
    congr 1
    rw [Nat.zero_add, Nat.sub_zero]
  · refine ⟨haux.1.trans hinv.1, ?_, ?_, ?_⟩
    · rw [List.nil_append, List.drop_zero] at hL1
      exact hL1
    · rw [RL_succ]
      exact FullLens_merged le p.fanout (RL p L) (by omega)
        (RL_pos p hprl (by omega) L) R.length R (Nat.le_refl _)
        hinv.2.2.1 hne
    · exact merged_sorted le htot htrans p.fanout (by omega) R hinv.2.2.2

/-- The `while (runCount > fanout)` loop of `prepare_pull`: it ends at some
level with at least one and at most `fanout` runs holding, in total, a
permutation of the original items. -/
theorem prepare_pull_go_spec (le : α → α → Bool)
    (htot : ∀ a b, le a b = true ∨ le b a = true)
    (htrans : ∀ a b c, le a b = true → le b c = true → le a c = true)
    (p : sort_parameters) (hp : ParamsOk p) :
    ∀ (fuel : Nat) (L : Nat) (s : merge_sorter α) (R : List (List α)),
      LevelInv le p s L R → R ≠ [] → R.length ≤ fuel →
      ∃ Lf Rf s', merge_sorter.prepare_pull_go le fuel L R.length s
          = (Lf, Rf.length, s') ∧
        LevelInv le p s' Lf Rf ∧ Rf ≠ [] ∧ Rf.length ≤ p.fanout ∧
        Rf.flatten.Perm R.flatten ∧ SameAux s s' := by
  obtain ⟨hprl, hpf, hpff, hpffle⟩ := hp
  intro fuel
  induction fuel with
  | zero =>
    intro L s R hinv hne hfuel
    exact absurd (List.length_eq_zero.1 (by omega)) hne
  | succ fuel ih =>
    intro L s R hinv hne hfuel
    simp only [merge_sorter.prepare_pull_go]
    rw [hinv.1]
    by_cases hguard : R.length > p.fanout
    · rw [if_pos hguard]
      obtain ⟨s1, hrun, haux, hinv1⟩ :=
        merge_level_spec le htot htrans p ⟨hprl, hpf, hpff, hpffle⟩ s L R hinv hne
      rw [hrun]
      have hlen1 : ((chunks p.fanout R).map (kmerge le)).length
          = numChunks p.fanout R.length := by
        rw [List.length_map]
        exact chunks_length p.fanout (by omega) R.length R (Nat.le_refl _)
      have hRpos : 0 < R.length := List.length_pos.2 hne
      have hne1 : (chunks p.fanout R).map (kmerge le) ≠ [] := by
        intro hcon
        have hlen0 := congrArg List.length hcon
        rw [hlen1] at hlen0
        have hposn := numChunks_pos p.fanout (by omega) R.length (by omega)
        simp at hlen0
        omega
      have := ih (L + 1) s1 ((chunks p.fanout R).map (kmerge le)) hinv1 hne1
        (by
          rw [hlen1]
          have := numChunks_lt p.fanout hpf R.length hguard
          omega)
      rw [hlen1] at this
      obtain ⟨Lf, Rf, s', hrun', hinv', hne', hle', hperm', haux'⟩ := this
      refine ⟨Lf, Rf, s', hrun', hinv', hne', hle', ?_, SameAux_trans s s1 s' haux haux'⟩
      exact hperm'.trans (merged_flatten_perm le p.fanout (by omega) R.length R
        (Nat.le_refl _))
    · rw [if_neg hguard]
      exact ⟨L, R, s, rfl, hinv, hne, by omega, List.Perm.refl _, SameAux_refl s⟩

/-- What `initialize_final_merger` does with `runCount = R.length` surviving
runs: below the final fanout it opens the merge heap over exactly those
runs; above it, it first merges the trailing `R.length - (finalFanout - 1)`
runs into run 0 of the next level and opens the heap over the
`finalFanout - 1` leading runs plus that long run. -/
theorem initialize_final_merger_spec (le : α → α → Bool)
    (p : sort_parameters) (hp : ParamsOk p) (s : merge_sorter α) (L : Nat)
    (R : List (List α)) (hinv : LevelInv le p s L R) (_hne : R ≠ [])
    (hRf : R.length ≤ p.fanout) :
    SameAux s (merge_sorter.initialize_final_merger le s L R.length) ∧
    (p.finalFanout < R.length →
      (merge_sorter.initialize_final_merger le s L R.length).m_mergerStreams
        = R.take (p.finalFanout - 1)
          ++ [kmerge le (R.drop (p.finalFanout - 1))] ∧
      (merge_sorter.initialize_final_merger le s L R.length).m_runFiles
        = merge_sorter.write_run s.m_runFiles p.fanout (L + 1) 0
            (kmerge le (R.drop (p.finalFanout - 1)))) ∧
    (R.length ≤ p.finalFanout →
      (merge_sorter.initialize_final_merger le s L R.length).m_mergerStreams = R ∧
      (merge_sorter.initialize_final_merger le s L R.length).m_runFiles
        = s.m_runFiles) := by
  obtain ⟨hprl, hpf, hpff, hpffle⟩ := hp
  obtain ⟨hsp, hold, hfull, hsort⟩ := hinv
  have hcases : merge_sorter.initialize_final_merger le s L R.length
      = if R.length > s.p.finalFanout then _ else _ := rfl
  by_cases hgt : p.finalFanout < R.length
  · have hguard : R.length > s.p.finalFanout := by rw [hsp]; exact hgt
    have hunf : merge_sorter.initialize_final_merger le s L R.length
        = (let i := s.p.finalFanout - 1
           let n := R.length - (s.p.finalFanout - 1)
           let r := merge_sorter.merge_runs le s L i n
           let runNumber := r.1
           let s1 := r.2
           let runLength := calculate_run_length s1.p.runLength s1.p.fanout (L + 1)
           { s1 with
             m_mergerStreams :=
               ((List.range (s1.p.finalFanout - 1)).map fun j =>
                 (merge_sorter.open_run_file_read s1 L j).take runLength)
               ++ [(merge_sorter.open_run_file_read s1 (L + 1) runNumber).take
                     runLength] }) := by
      rw [merge_sorter.initialize_final_merger, if_pos hguard]
    have hcover : (s.p.finalFanout - 1)
        + (R.length - (s.p.finalFanout - 1)) ≤ R.length := by
      rw [hsp]; omega
    have hmr2 := merge_runs_snd le p ⟨hprl, hpf, hpff, hpffle⟩ s L R
      ⟨hsp, hold, hfull, hsort⟩ (s.p.finalFanout - 1)
      (R.length - (s.p.finalFanout - 1)) hcover
    have hfst : (merge_sorter.merge_runs le s L (s.p.finalFanout - 1)
        (R.length - (s.p.finalFanout - 1))).1 = 0 := by
      rw [merge_runs_fst, hsp, Nat.div_eq_of_lt (by omega)]
    have htake_eq : (R.drop (s.p.finalFanout - 1)).take
        (R.length - (s.p.finalFanout - 1)) = R.drop (s.p.finalFanout - 1) := by
      apply List.take_of_length_le
      rw [List.length_drop]
    set out := kmerge le (R.drop (s.p.finalFanout - 1)) with hout_def
    have hmr2' : (merge_sorter.merge_runs le s L (s.p.finalFanout - 1)
        (R.length - (s.p.finalFanout - 1))).2 =
      { s with
        m_runFiles := merge_sorter.write_run s.m_runFiles p.fanout (L + 1)
          ((s.p.finalFanout - 1) / p.fanout) out
        m_mergerStreams := [] } := by
      rw [hmr2, htake_eq, hout_def]
    have hdiv0 : (s.p.finalFanout - 1) / p.fanout = 0 := by
      rw [hsp]
      exact Nat.div_eq_of_lt (by omega)
    rw [hdiv0] at hmr2'
    set s1 : merge_sorter α :=
      { s with
        m_runFiles := merge_sorter.write_run s.m_runFiles p.fanout (L + 1) 0 out
        m_mergerStreams := [] } with hs1_def
    have hs1p : s1.p = p := hsp
    have hs1holdL : FilesHold p.fanout s1.m_runFiles L R :=
      FilesHold_write_other p.fanout (by omega) s.m_runFiles L (L + 1)
        (mod_two_succ_ne L) 0 out R hold
    have hs1hold1 : FilesHold p.fanout s1.m_runFiles (L + 1) [out] := by
      have := FilesHold_write p.fanout (by omega) s.m_runFiles (L + 1) []
        (FilesHold_nil p.fanout s.m_runFiles (L + 1)) out
      simpa using this
    have hshort : ∀ j, j < s1.p.finalFanout - 1 →
        (merge_sorter.open_run_file_read s1 L j).take
          (calculate_run_length s1.p.runLength s1.p.fanout (L + 1))
          = R.getD j [] := by
      intro j hj
      rw [hs1p] at hj
      have hjR : j < R.length := by omega
      rw [open_run_file_read_single s1 L j R (by rw [hs1p]; omega)
            (by rw [hs1p]; exact hs1holdL) hjR (by rw [hs1p]; omega)]
      apply List.take_of_length_le
      have h1 : (R.getD j []).length ≤ RL p L := by
        apply FullLens_mem (RL p L) R hfull
        rw [List.getD_eq_getElem?_getD, List.getElem?_eq_getElem hjR,
            Option.getD_some]
        exact List.getElem_mem _
      have h2 : RL p L ≤ RL p (L + 1) := by
        rw [RL_succ]
        calc RL p L = RL p L * 1 := (Nat.mul_one _).symm
          _ ≤ RL p L * p.fanout := Nat.mul_le_mul_left _ (by omega)
      show (R.getD j []).length ≤ calculate_run_length s1.p.runLength s1.p.fanout (L + 1)
      rw [hs1p]
      exact h1.trans h2
    have hlong : (merge_sorter.open_run_file_read s1 (L + 1) 0).take
        (calculate_run_length s1.p.runLength s1.p.fanout (L + 1)) = out := by
      rw [open_run_file_read_single s1 (L + 1) 0 [out] (by rw [hs1p]; omega)
            (by rw [hs1p]; exact hs1hold1) (by simp) (by simp; rw [hs1p]; omega)]
      show ([out].getD 0 []).take _ = out
      rw [List.getD_cons_zero]
      apply List.take_of_length_le
      have h1 : out.length ≤ (R.length - (s.p.finalFanout - 1)) * RL p L := by
        rw [hout_def, kmerge_length]
        have := flatten_length_le (RL p L) (R.drop (s.p.finalFanout - 1))
          (FullLens_drop (RL p L) R hfull (s.p.finalFanout - 1))
        rw [List.length_drop] at this
        exact this
      have h2 : (R.length - (s.p.finalFanout - 1)) * RL p L ≤ p.fanout * RL p L :=
        Nat.mul_le_mul_right _ (by omega)
      show out.length ≤ calculate_run_length s1.p.runLength s1.p.fanout (L + 1)
      rw [hs1p]
      show out.length ≤ RL p (L + 1)
      rw [RL_succ, Nat.mul_comm]
      exact h1.trans h2
    have hmap : (List.range (s1.p.finalFanout - 1)).map (fun j =>
        (merge_sorter.open_run_file_read s1 L j).take
          (calculate_run_length s1.p.runLength s1.p.fanout (L + 1)))
        = R.take (p.finalFanout - 1) := by
      calc (List.range (s1.p.finalFanout - 1)).map (fun j =>
              (merge_sorter.open_run_file_read s1 L j).take
                (calculate_run_length s1.p.runLength s1.p.fanout (L + 1)))
          = (List.range (s1.p.finalFanout - 1)).map (fun j => R.getD (0 + j) []) := by
            refine List.map_congr_left fun j hj => ?_
            rw [Nat.zero_add]
            exact hshort j (List.mem_range.1 hj)
        _ = (R.drop 0).take (s1.p.finalFanout - 1) :=
            range_map_getD R [] 0 (s1.p.finalFanout - 1) (by rw [hs1p]; omega)
        _ = R.take (p.finalFanout - 1) := by rw [List.drop_zero, hs1p]
    have hresult : merge_sorter.initialize_final_merger le s L R.length
        = { s1 with
            m_mergerStreams := R.take (p.finalFanout - 1) ++ [out] } := by
      rw [hunf]
      dsimp only
      rw [hmr2', hfst, hmap, hlong]
    refine ⟨?_, fun _ => ⟨?_, ?_⟩, fun hcon => absurd hgt (by omega)⟩
    · rw [hresult]
      exact ⟨rfl, rfl, rfl, rfl, rfl, rfl, rfl⟩
    · rw [hresult]
      show List.take (p.finalFanout - 1) R ++ [out] = _
      rw [hout_def, hsp]
    · rw [hresult]
      show merge_sorter.write_run s.m_runFiles p.fanout (L + 1) 0 out = _
      rw [hout_def, hsp]
  · have hguard : ¬ R.length > s.p.finalFanout := by rw [hsp]; omega
    have hunf : merge_sorter.initialize_final_merger le s L R.length
        = merge_sorter.initialize_merger s L 0 R.length := by
      rw [merge_sorter.initialize_final_merger, if_neg hguard]
    have hstreams := initialize_merger_streams p s L R 0 R.length (by omega)
      hsp hold hfull (by omega)
    rw [List.drop_zero, List.take_length] at hstreams
    refine ⟨?_, fun hcon => absurd hcon (by omega), fun _ => ⟨?_, ?_⟩⟩
    · rw [hunf]
      exact ⟨rfl, rfl, rfl, rfl, rfl, rfl, rfl⟩
    · rw [hunf, hstreams]
    · rw [hunf]
      rfl

/-- `prepare_pull` under the level-0 invariant: pulling becomes prepared
and the merge heap holds sorted streams carrying a permutation of the
items. -/
theorem prepare_pull_spec (le : α → α → Bool)
    (htot : ∀ a b, le a b = true ∨ le b a = true)
    (htrans : ∀ a b c, le a b = true → le b c = true → le a c = true)
    (p : sort_parameters) (hp : ParamsOk p) (s : merge_sorter α)
    (R₀ : List (List α)) (hinv : LevelInv le p s 0 R₀) (hne : R₀ ≠ [])
    (hfin : s.m_finishedRuns = R₀.length) :
    (merge_sorter.prepare_pull le s).pull_prepared = true ∧
    (merge_sorter.prepare_pull le s).m_reportInternal = s.m_reportInternal ∧
    (merge_sorter.prepare_pull le s).m_currentRunItems = s.m_currentRunItems ∧
    (merge_sorter.prepare_pull le s).m_itemsPulled = s.m_itemsPulled ∧
    (∀ l ∈ (merge_sorter.prepare_pull le s).m_mergerStreams, SortedLe le l) ∧
    ((merge_sorter.prepare_pull le s).m_mergerStreams).flatten.Perm R₀.flatten := by
  obtain ⟨hprl, hpf, hpff, hpffle⟩ := hp
  obtain ⟨Lf, Rf, s', hrun, hinv', hne', hle', hperm', haux'⟩ :=
    prepare_pull_go_spec le htot htrans p ⟨hprl, hpf, hpff, hpffle⟩ R₀.length 0 s
      R₀ hinv hne (Nat.le_refl _)
  obtain ⟨hauxF, hgtF, hleF⟩ :=
    initialize_final_merger_spec le p ⟨hprl, hpf, hpff, hpffle⟩ s' Lf Rf hinv'
      hne' hle'
  have hunf : merge_sorter.prepare_pull le s
      = { merge_sorter.initialize_final_merger le s' Lf Rf.length with
          pull_prepared := true } := by
    rw [merge_sorter.prepare_pull]
    rw [hfin, hrun]
  have hstreams_eq : (merge_sorter.prepare_pull le s).m_mergerStreams
      = (merge_sorter.initialize_final_merger le s' Lf Rf.length).m_mergerStreams := by
    rw [hunf]
  have hsorted : ∀ l ∈ (merge_sorter.prepare_pull le s).m_mergerStreams,
      SortedLe le l := by
    rw [hstreams_eq]
    rcases Nat.lt_or_ge p.finalFanout Rf.length with hc | hc
    · rw [(hgtF hc).1]
      intro l hl
      rcases List.mem_append.1 hl with hl | hl
      · exact hinv'.2.2.2 l (List.mem_of_mem_take hl)
      · rcases List.mem_singleton.1 hl with rfl
        exact kmerge_sorted le htot htrans _ fun m hm =>
          hinv'.2.2.2 m (List.mem_of_mem_drop hm)
    · rw [(hleF (by omega)).1]
      exact hinv'.2.2.2
  have hperm : ((merge_sorter.prepare_pull le s).m_mergerStreams).flatten.Perm
      R₀.flatten := by
    rw [hstreams_eq]
    refine List.Perm.trans ?_ hperm'
    rcases Nat.lt_or_ge p.finalFanout Rf.length with hc | hc
    · rw [(hgtF hc).1, List.flatten_append]
      have h1 : ([kmerge le (Rf.drop (p.finalFanout - 1))].flatten).Perm
          (Rf.drop (p.finalFanout - 1)).flatten := by
        simpa using kmerge_perm le (Rf.drop (p.finalFanout - 1))
      calc ((Rf.take (p.finalFanout - 1)).flatten
              ++ [kmerge le (Rf.drop (p.finalFanout - 1))].flatten).Perm
            ((Rf.take (p.finalFanout - 1)).flatten
              ++ (Rf.drop (p.finalFanout - 1)).flatten) :=
            List.Perm.append_left _ h1
        _ = Rf.flatten := by
            rw [← List.flatten_append, List.take_append_drop]
    · rw [(hleF (by omega)).1]
  refine ⟨by rw [hunf], ?_, ?_, ?_, hsorted, hperm⟩
  · rw [hunf]
    show (merge_sorter.initialize_final_merger le s' Lf Rf.length).m_reportInternal
      = s.m_reportInternal
    rw [hauxF.2.2.2.2.1]
    exact haux'.2.2.2.2.1
  · rw [hunf]
    show (merge_sorter.initialize_final_merger le s' Lf Rf.length).m_currentRunItems
      = s.m_currentRunItems
    rw [hauxF.2.2.1]
    exact haux'.2.2.1
  · rw [hunf]
    show (merge_sorter.initialize_final_merger le s' Lf Rf.length).m_itemsPulled
      = s.m_itemsPulled
    rw [hauxF.2.2.2.2.2.1]
    exact haux'.2.2.2.2.2.1

/-! ## Phase 2: run formation -/

theorem push_eq (le : α → α → Bool) (s : merge_sorter α) (x : α)
    (hset : s.m_parametersSet = true) :
    merge_sorter.push le s x =
      (let s1 := if s.m_currentRunItems.length ≥ s.p.runLength
        then merge_sorter.empty_current_run (merge_sorter.sort_current_run le s)
        else s
       if s1.m_currentRunItems.length < s1.m_runBufferCapacity
       then Except.ok { s1 with m_currentRunItems := s1.m_currentRunItems ++ [x] }
       else Except.error TpError.invalidAccess) := by
  unfold merge_sorter.push tp_assert
  rw [hset]
  rfl

theorem end_eq (le : α → α → Bool) (s : merge_sorter α)
    (hset : s.m_parametersSet = true) :
    merge_sorter.end_ le s =
      (let s1 := merge_sorter.sort_current_run le s
       if s1.m_finishedRuns = 0
          ∧ s1.m_currentRunItems.length ≤ s1.p.internalReportThreshold
       then Except.ok { s1 with m_reportInternal := true, m_itemsPulled := 0 }
       else Except.ok { merge_sorter.empty_current_run s1 with
                        m_reportInternal := false, m_runBufferCapacity := 0 }) := by
  unfold merge_sorter.end_ tp_assert
  rw [hset]
  rfl

theorem calc_eq (le : α → α → Bool) (s : merge_sorter α)
    (hset : s.m_parametersSet = true) :
    merge_sorter.calc_ le s =
      (if !s.m_reportInternal then Except.ok (merge_sorter.prepare_pull le s)
       else Except.ok { s with pull_prepared := true }) := by
  unfold merge_sorter.calc_ tp_assert
  rw [hset]
  rfl

/-- The run-formation invariant between pushes: the bank files hold the
`R` full sorted runs spilled so far, the buffer holds the unsorted residue,
and together they carry exactly the pushed items. -/
def Phase2Inv (le : α → α → Bool) (p : sort_parameters) (s : merge_sorter α)
    (R : List (List α)) (xs : List α) : Prop :=
  s.p = p ∧ s.m_parametersSet = true ∧ s.m_runBufferCapacity = p.runLength ∧
  s.m_finishedRuns = R.length ∧
  FilesHold p.fanout s.m_runFiles 0 R ∧
  (∀ l ∈ R, SortedLe le l) ∧ (∀ l ∈ R, l.length = p.runLength) ∧
  (R.flatten ++ s.m_currentRunItems).Perm xs ∧
  s.m_currentRunItems.length ≤ p.runLength ∧
  (xs ≠ [] → s.m_currentRunItems ≠ [])

theorem begin_spec (le : α → α → Bool) (p : sort_parameters)
    (s : merge_sorter α) (hsp : s.p = p) (hset : s.m_parametersSet = true) :
    ∃ s', merge_sorter.begin s = Except.ok s' ∧ Phase2Inv le p s' [] [] := by
  refine ⟨_, by unfold merge_sorter.begin tp_assert; rw [hset]; rfl, ?_⟩
  exact ⟨hsp, rfl, by rw [hsp], rfl, FilesHold_nil _ _ _, by simp, by simp,
    by simp, by simp [hsp], by simp⟩

theorem push_spec (le : α → α → Bool)
    (htot : ∀ a b, le a b = true ∨ le b a = true)
    (htrans : ∀ a b c, le a b = true → le b c = true → le a c = true)
    (p : sort_parameters) (hp : ParamsOk p) (s : merge_sorter α)
    (R : List (List α)) (xs : List α) (hinv : Phase2Inv le p s R xs) (x : α) :
    ∃ s' R', merge_sorter.push le s x = Except.ok s'
      ∧ Phase2Inv le p s' R' (xs ++ [x]) := by
  obtain ⟨hprl, hpf, hpff, hpffle⟩ := hp
  obtain ⟨hsp, hset, hcap, hfin, hold, hsortR, hfullR, hperm, hblen, hne⟩ := hinv
  rw [push_eq le s x hset]
  by_cases hflush : s.m_currentRunItems.length ≥ s.p.runLength
  · have hflush' : s.m_currentRunItems.length = p.runLength := by
      rw [hsp] at hflush; omega
    rw [if_pos hflush]
    set srt := sortLe le s.m_currentRunItems with hsrt_def
    set s1 := merge_sorter.empty_current_run (merge_sorter.sort_current_run le s)
      with hs1_def
    have hs1 : s1 = { s with
        m_runFiles := merge_sorter.write_run s.m_runFiles s.p.fanout 0
          s.m_finishedRuns srt
        m_currentRunItems := []
        m_finishedRuns := s.m_finishedRuns + 1 } := rfl
    have hguard : s1.m_currentRunItems.length < s1.m_runBufferCapacity := by
      rw [hs1]
      show ([] : List α).length < s.m_runBufferCapacity
      rw [hcap]
      simpa using hprl
    rw [if_pos hguard]
    refine ⟨_, R ++ [srt], rfl, ?_⟩
    refine ⟨by rw [hs1]; exact hsp, by rw [hs1]; exact hset,
      by rw [hs1]; exact hcap, ?_, ?_, ?_, ?_, ?_, ?_, ?_⟩
    · show s1.m_finishedRuns = (R ++ [srt]).length
      rw [hs1, List.length_append, hfin]
      rfl
    · show FilesHold p.fanout s1.m_runFiles 0 (R ++ [srt])
      rw [hs1]
      show FilesHold p.fanout (merge_sorter.write_run s.m_runFiles s.p.fanout 0
        s.m_finishedRuns srt) 0 (R ++ [srt])
      rw [hsp, hfin]
      exact FilesHold_write p.fanout (by omega) s.m_runFiles 0 R hold srt
    · intro l hl
      rcases List.mem_append.1 hl with hl | hl
      · exact hsortR l hl
      · rcases List.mem_singleton.1 hl with rfl
        exact sortLe_sorted le htot htrans _
    · intro l hl
      rcases List.mem_append.1 hl with hl | hl
      · exact hfullR l hl
      · rcases List.mem_singleton.1 hl with rfl
        rw [hsrt_def, sortLe_length]
        exact hflush'
    · show ((R ++ [srt]).flatten ++ ([] ++ [x])).Perm (xs ++ [x])
      rw [List.flatten_append]
      refine List.Perm.append ?_ (List.Perm.refl [x])
      simp only [List.flatten_cons, List.flatten_nil, List.append_nil,
        List.nil_append]
      refine List.Perm.trans ?_ hperm
      exact List.Perm.append_left R.flatten (sortLe_perm le s.m_currentRunItems)
    · show ([] ++ [x] : List α).length ≤ p.runLength
      simp
      omega
    · intro _
      simp
  · rw [if_neg hflush]
    have hguard : s.m_currentRunItems.length < s.m_runBufferCapacity := by
      rw [hcap, hsp] at *
      omega
    rw [if_pos hguard]
    refine ⟨_, R, rfl, ⟨hsp, hset, hcap,
      by show s.m_finishedRuns = R.length; exact hfin, hold, hsortR, hfullR,
      ?_, ?_, ?_⟩⟩
    · show (R.flatten ++ (s.m_currentRunItems ++ [x])).Perm (xs ++ [x])
      rw [← List.append_assoc]
      exact hperm.append (List.Perm.refl [x])
    · show (s.m_currentRunItems ++ [x]).length ≤ p.runLength
      rw [List.length_append, hsp] at *
      simp at *
      omega
    · intro _
      simp

theorem pushAll_spec (le : α → α → Bool)
    (htot : ∀ a b, le a b = true ∨ le b a = true)
    (htrans : ∀ a b c, le a b = true → le b c = true → le a c = true)
    (p : sort_parameters) (hp : ParamsOk p) :
    ∀ (ys : List α) (s : merge_sorter α) (R : List (List α)) (xs : List α),
      Phase2Inv le p s R xs →
      ∃ s' R', merge_sorter.pushAll le s ys = Except.ok s'
        ∧ Phase2Inv le p s' R' (xs ++ ys) := by
  intro ys
  induction ys with
  | nil =>
    intro s R xs hinv
    exact ⟨s, R, rfl, by simpa using hinv⟩
  | cons y ys ih =>
    intro s R xs hinv
    obtain ⟨s1, R1, hpush, hinv1⟩ := push_spec le htot htrans p hp s R xs hinv y
    obtain ⟨s', R', hrest, hinv'⟩ := ih s1 R1 (xs ++ [y]) hinv1
    refine ⟨s', R', ?_, by simpa using hinv'⟩
    show (merge_sorter.push le s y).bind _ = Except.ok s'
    rw [hpush]
    exact hrest

theorem FullLens_append_full (rl : Nat) (R : List (List α)) (last : List α)
    (hfull : ∀ l ∈ R, l.length = rl) (hpos : 0 < last.length)
    (hle : last.length ≤ rl) : FullLens rl (R ++ [last]) := by
  induction R with
  | nil => exact ⟨hpos, hle⟩
  | cons r R ih =>
    have htail := ih fun l hl => hfull l (List.mem_cons_of_mem _ hl)
    rcases hx : R ++ [last] with _ | ⟨a, rest⟩
    · exact absurd (congrArg List.length hx) (by simp)
    · show FullLens rl (r :: (R ++ [last]))
      rw [hx]
      exact ⟨by simpa using hfull r (by simp), hx ▸ htail⟩

/-- `end()` when no run was spilled and the residue fits the threshold:
internal reporting mode, with the sorted residue kept in memory. -/
theorem end_spec_internal (le : α → α → Bool) (p : sort_parameters)
    (s : merge_sorter α) (R : List (List α)) (xs : List α)
    (hinv : Phase2Inv le p s R xs)
    (hc1 : s.m_finishedRuns = 0)
    (hc2 : s.m_currentRunItems.length ≤ p.internalReportThreshold) :
    ∃ s', merge_sorter.end_ le s = Except.ok s' ∧
      s'.m_reportInternal = true ∧ s'.m_itemsPulled = 0 ∧
      s'.m_parametersSet = true ∧ s'.p = p ∧
      s'.m_currentRunItems = sortLe le s.m_currentRunItems ∧
      s'.m_currentRunItems.Perm xs := by
  obtain ⟨hsp, hset, hcap, hfin, hold, hsortR, hfullR, hperm, hblen, hne⟩ := hinv
  have hR : R = [] := List.length_eq_zero.1 (by omega)
  rw [end_eq le s hset]
  have hcond : (merge_sorter.sort_current_run le s).m_finishedRuns = 0
      ∧ (merge_sorter.sort_current_run le s).m_currentRunItems.length
        ≤ (merge_sorter.sort_current_run le s).p.internalReportThreshold := by
    constructor
    · exact hc1
    · show (sortLe le s.m_currentRunItems).length ≤ s.p.internalReportThreshold
      rw [sortLe_length, hsp]
      exact hc2
  rw [if_pos hcond]
  refine ⟨_, rfl, rfl, rfl, hset, hsp, rfl, ?_⟩
  show (sortLe le s.m_currentRunItems).Perm xs
  refine (sortLe_perm le s.m_currentRunItems).trans ?_
  rw [hR] at hperm
  simpa using hperm

/-- `end()` in every other case: the residue is spilled as one more run and
the level-0 invariant holds for all the runs. -/
theorem end_spec_external (le : α → α → Bool)
    (htot : ∀ a b, le a b = true ∨ le b a = true)
    (htrans : ∀ a b c, le a b = true → le b c = true → le a c = true)
    (p : sort_parameters) (hp : ParamsOk p) (s : merge_sorter α)
    (R : List (List α)) (xs : List α) (hinv : Phase2Inv le p s R xs)
    (hcond : ¬(s.m_finishedRuns = 0
      ∧ s.m_currentRunItems.length ≤ p.internalReportThreshold)) :
    ∃ s', merge_sorter.end_ le s = Except.ok s' ∧
      s'.m_reportInternal = false ∧ s'.m_parametersSet = true ∧
      s'.m_finishedRuns = (R ++ [sortLe le s.m_currentRunItems]).length ∧
      LevelInv le p s' 0 (R ++ [sortLe le s.m_currentRunItems]) ∧
      R ++ [sortLe le s.m_currentRunItems] ≠ [] ∧
      ((R ++ [sortLe le s.m_currentRunItems]).flatten).Perm xs := by
  obtain ⟨hprl, hpf, hpff, hpffle⟩ := hp
  obtain ⟨hsp, hset, hcap, hfin, hold, hsortR, hfullR, hperm, hblen, hne⟩ := hinv
  have hrem_ne : s.m_currentRunItems ≠ [] := by
    by_cases hR : R = []
    · rw [hR] at hfin
      apply hne
      intro hxs
      rw [hxs] at hperm
      have := hperm.symm.length_eq
      simp at this
      apply hcond
      refine ⟨by rw [hfin]; rfl, ?_⟩
      omega
    · apply hne
      intro hxs
      rw [hxs] at hperm
      have h0 : R.flatten ++ s.m_currentRunItems = [] := hperm.eq_nil
      rcases List.append_eq_nil.1 h0 with ⟨hfl, -⟩
      rcases List.exists_cons_of_ne_nil hR with ⟨r, R', rfl⟩
      have hr0 : r = [] := (List.flatten_eq_nil_iff.1 hfl) r (by simp)
      have hr : r.length = p.runLength := hfullR r (by simp)
      rw [hr0] at hr
      simp at hr
      omega
  rw [end_eq le s hset]
  have hcond' : ¬((merge_sorter.sort_current_run le s).m_finishedRuns = 0
      ∧ (merge_sorter.sort_current_run le s).m_currentRunItems.length
        ≤ (merge_sorter.sort_current_run le s).p.internalReportThreshold) := by
    intro hcon
    apply hcond
    refine ⟨hcon.1, ?_⟩
    have := hcon.2
    show s.m_currentRunItems.length ≤ p.internalReportThreshold
    rw [show (merge_sorter.sort_current_run le s).m_currentRunItems.length
          = s.m_currentRunItems.length from sortLe_length le _] at this
    rw [show (merge_sorter.sort_current_run le s).p = s.p from rfl, hsp] at this
    exact this
  rw [if_neg hcond']
  set srt := sortLe le s.m_currentRunItems with hsrt_def
  refine ⟨_, rfl, rfl, hset, ?_, ⟨hsp, ?_, ?_, ?_⟩, by simp, ?_⟩
  · show s.m_finishedRuns + 1 = (R ++ [srt]).length
    rw [hfin, List.length_append]
    rfl
  · show FilesHold p.fanout (merge_sorter.write_run s.m_runFiles s.p.fanout 0
      s.m_finishedRuns srt) 0 (R ++ [srt])
    rw [hsp, hfin]
    exact FilesHold_write p.fanout (by omega) s.m_runFiles 0 R hold srt
  · show FullLens (RL p 0) (R ++ [srt])
    have hRL0 : RL p 0 = p.runLength := rfl
    rw [hRL0]
    refine FullLens_append_full p.runLength R srt hfullR ?_ ?_
    · rw [hsrt_def, sortLe_length]
      exact List.length_pos.2 hrem_ne
    · rw [hsrt_def, sortLe_length]
      exact hblen
  · intro l hl
    rcases List.mem_append.1 hl with hl | hl
    · exact hsortR l hl
    · rcases List.mem_singleton.1 hl with rfl
      exact sortLe_sorted le htot htrans _
  · rw [List.flatten_append]
    simp only [List.flatten_cons, List.flatten_nil, List.append_nil]
    refine List.Perm.trans ?_ hperm
    exact List.Perm.append_left R.flatten (sortLe_perm le s.m_currentRunItems)

/-! ## Phase 4: pulling -/

theorem kmerge_of_popMin_none (le : α → α → Bool) (ss : List (List α))
    (h : popMin le ss = none) : kmerge le ss = [] := by
  have h0 : totalLen ss = 0 := by
    rw [totalLen_eq_length_flatten, popMin_none_flatten le ss h]
    rfl
  rw [kmerge, h0]
  rfl

theorem kmerge_cons (le : α → α → Bool) (ss : List (List α)) (a : α)
    (ss' : List (List α)) (h : popMin le ss = some (a, ss')) :
    kmerge le ss = a :: kmerge le ss' := by
  rw [kmerge, popMin_totalLen le ss a ss' h]
  simp only [kmergeF, h]
  rfl

theorem can_pull_eq (le : α → α → Bool) (s : merge_sorter α)
    (hprep : s.pull_prepared = true) :
    merge_sorter.can_pull le s = Except.ok
      (if s.m_reportInternal
       then decide (s.m_itemsPulled < s.m_currentRunItems.length)
       else (popMin le s.m_mergerStreams).isSome) := by
  unfold merge_sorter.can_pull tp_assert
  rw [hprep, if_pos rfl]
  by_cases h : s.m_reportInternal = true
  · rw [if_pos h, if_pos h]
    rfl
  · rw [if_neg h, if_neg h]
    rfl

theorem pull_eq_external (le : α → α → Bool) (s : merge_sorter α)
    (hprep : s.pull_prepared = true) (hrep : s.m_reportInternal = false)
    (a : α) (ss' : List (List α))
    (hpop : popMin le s.m_mergerStreams = some (a, ss')) :
    merge_sorter.pull le s
      = Except.ok (a, { s with m_mergerStreams := ss' }) := by
  unfold merge_sorter.pull tp_assert
  rw [hprep, if_pos rfl]
  show (if s.m_reportInternal = true ∧ s.m_itemsPulled < s.m_currentRunItems.length
    then _ else _) = _
  rw [hrep]
  simp only [Bool.false_eq_true, false_and, if_false]
  rw [hpop]
  rfl

theorem ok_bind {ε β γ : Type _} (a : β) (f : β → Except ε γ) :
    ((Except.ok a : Except ε β) >>= f) = f a := rfl

theorem ok_bind' {ε β γ : Type _} (a : β) (f : β → Except ε γ) :
    (Except.ok (ε := ε) a).bind f = f a := rfl

theorem pure_bind_ok {ε β γ : Type _} (a : β) (f : β → Except ε γ) :
    ((pure a : Except ε β) >>= f) = f a := rfl

theorem pullAll_external (le : α → α → Bool) :
    ∀ (fuel : Nat) (s : merge_sorter α), s.pull_prepared = true →
      s.m_reportInternal = false → totalLen s.m_mergerStreams + 1 ≤ fuel →
      merge_sorter.pullAllF le fuel s
        = Except.ok (kmerge le s.m_mergerStreams) := by
  intro fuel
  induction fuel with
  | zero => intro s _ _ hfuel; omega
  | succ fuel ih =>
    intro s hprep hrep hfuel
    show (merge_sorter.can_pull le s).bind _ = _
    rw [can_pull_eq le s hprep, hrep]
    simp only [if_false, Bool.false_eq_true]
    cases hpop : popMin le s.m_mergerStreams with
    | none =>
      simp only [ok_bind, Option.isSome_none, Bool.false_eq_true, if_false]
      rw [kmerge_of_popMin_none le _ hpop]
      rfl
    | some v =>
      rcases v with ⟨a, ss'⟩
      simp only [ok_bind, Option.isSome_some, if_true]
      rw [pull_eq_external le s hprep hrep a ss' hpop]
      simp only [ok_bind]
      have hrest : merge_sorter.pullAllF le fuel
          { s with m_mergerStreams := ss' } = Except.ok (kmerge le ss') :=
        ih { s with m_mergerStreams := ss' } hprep hrep (by
          show totalLen ss' + 1 ≤ fuel
          have htl := popMin_totalLen le _ a ss' hpop
          omega)
      rw [hrest]
      simp only [ok_bind]
      rw [kmerge_cons le s.m_mergerStreams a ss' hpop]
      rfl

theorem pull_eq_internal (le : α → α → Bool) (s : merge_sorter α)
    (hprep : s.pull_prepared = true) (hrep : s.m_reportInternal = true)
    (el : α) (hget : s.m_currentRunItems.get? s.m_itemsPulled = some el) :
    merge_sorter.pull le s = Except.ok
      (el,
       if s.m_itemsPulled + 1 < s.m_currentRunItems.length
       then { s with m_itemsPulled := s.m_itemsPulled + 1 }
       else { s with
              m_itemsPulled := s.m_itemsPulled + 1
              m_currentRunItems := []
              m_runBufferCapacity := 0 }) := by
  have hlt : s.m_itemsPulled < s.m_currentRunItems.length := by
    by_contra hcon
    rw [List.get?_eq_none.2 (by omega)] at hget
    exact absurd hget (by simp)
  unfold merge_sorter.pull tp_assert
  rw [if_pos hprep, pure_bind_ok]
  rw [if_pos (show s.m_reportInternal = true
    ∧ s.m_itemsPulled < s.m_currentRunItems.length from ⟨hrep, hlt⟩)]
  simp only [hget]
  by_cases hc : s.m_itemsPulled + 1 < s.m_currentRunItems.length
  · rw [if_pos hc]
    rfl
  · rw [if_neg hc]
    rfl

theorem pullAll_internal (le : α → α → Bool) :
    ∀ (fuel : Nat) (s : merge_sorter α), s.pull_prepared = true →
      s.m_reportInternal = true →
      (s.m_currentRunItems.length - s.m_itemsPulled) + 1 ≤ fuel →
      merge_sorter.pullAllF le fuel s
        = Except.ok (s.m_currentRunItems.drop s.m_itemsPulled) := by
  intro fuel
  induction fuel with
  | zero => intro s _ _ hfuel; omega
  | succ fuel ih =>
    intro s hprep hrep hfuel
    show (merge_sorter.can_pull le s).bind _ = _
    rw [can_pull_eq le s hprep, hrep]
    simp only [if_true]
    by_cases hlt : s.m_itemsPulled < s.m_currentRunItems.length
    · rw [show (decide (s.m_itemsPulled < s.m_currentRunItems.length)) = true
          by simpa using hlt]
      obtain ⟨el, hget⟩ : ∃ el,
          s.m_currentRunItems.get? s.m_itemsPulled = some el := by
        rcases h : s.m_currentRunItems.get? s.m_itemsPulled with _ | el
        · rw [List.get?_eq_none] at h; omega
        · exact ⟨el, rfl⟩
      have hel : s.m_currentRunItems.drop s.m_itemsPulled
          = el :: s.m_currentRunItems.drop (s.m_itemsPulled + 1) := by
        rw [List.drop_eq_getElem_cons hlt]
        congr 1
        have hg2 := hget
        rw [List.get?_eq_getElem?, List.getElem?_eq_getElem hlt] at hg2
        simpa using hg2
      show ((Except.ok true).bind fun b =>
        if b = true then _ else pure []) = _
      rw [ok_bind']
      rw [if_pos rfl]
      rw [pull_eq_internal le s hprep hrep el hget]
      simp only [ok_bind]
      by_cases hc : s.m_itemsPulled + 1 < s.m_currentRunItems.length
      · rw [if_pos hc]
        have hrest : merge_sorter.pullAllF le fuel
            { s with m_itemsPulled := s.m_itemsPulled + 1 }
            = Except.ok (s.m_currentRunItems.drop (s.m_itemsPulled + 1)) :=
          ih { s with m_itemsPulled := s.m_itemsPulled + 1 } hprep hrep (by
            show s.m_currentRunItems.length - (s.m_itemsPulled + 1) + 1 ≤ fuel
            omega)
        rw [hrest]
        simp only [ok_bind]
        rw [hel]
        rfl
      · rw [if_neg hc]
        have hrest : merge_sorter.pullAllF le fuel
            { s with
              m_itemsPulled := s.m_itemsPulled + 1
              m_currentRunItems := []
              m_runBufferCapacity := 0 }
            = Except.ok (([] : List α).drop (s.m_itemsPulled + 1)) :=
          ih { s with
              m_itemsPulled := s.m_itemsPulled + 1
              m_currentRunItems := []
              m_runBufferCapacity := 0 } hprep hrep (by
            show ([] : List α).length - (s.m_itemsPulled + 1) + 1 ≤ fuel
            simp only [List.length_nil]
            omega)
        rw [hrest]
        simp only [ok_bind, List.drop_nil]
        rw [hel, List.drop_eq_nil_of_le (by omega)]
        rfl
    · rw [show (decide (s.m_itemsPulled < s.m_currentRunItems.length)) = false
          by simpa using hlt]
      rw [List.drop_eq_nil_of_le (by omega)]
      rfl


/-! ## The master correctness theorem for the whole sorter protocol -/

/-- Running the full sorter protocol on any input returns a sorted
permutation of the input, whichever reporting mode `end()` selects. -/
theorem run_sorter_correct (le : α → α → Bool)
    (htot : ∀ a b, le a b = true ∨ le b a = true)
    (htrans : ∀ a b c, le a b = true → le b c = true → le a c = true)
    (runLength fanout : Nat) (h1 : 1 ≤ runLength) (h2 : 2 ≤ fanout)
    (xs : List α) :
    ∃ out, merge_sorter.run_sorter le runLength fanout xs = Except.ok out
      ∧ out.Perm xs ∧ SortedLe le out := by
  obtain ⟨s1, hbegin, hinv1⟩ :=
    begin_spec le
      (merge_sorter.set_parameters (merge_sorter.mk0 (α := α)) runLength fanout).p
      (merge_sorter.set_parameters (merge_sorter.mk0 (α := α)) runLength fanout)
      rfl rfl
  have hp : ParamsOk
      (merge_sorter.set_parameters (merge_sorter.mk0 (α := α)) runLength fanout).p :=
    ⟨h1, h2, show 1 ≤ fanout by omega, show fanout ≤ fanout from Nat.le_refl _⟩
  obtain ⟨s2, R, hpush, hinv2⟩ := pushAll_spec le htot htrans _ hp xs s1 [] [] hinv1
  have hinv2' : Phase2Inv le
      (merge_sorter.set_parameters (merge_sorter.mk0 (α := α)) runLength fanout).p
      s2 R xs := by simpa using hinv2
  by_cases hcond : s2.m_finishedRuns = 0 ∧ s2.m_currentRunItems.length
      ≤ (merge_sorter.set_parameters (merge_sorter.mk0 (α := α))
          runLength fanout).p.internalReportThreshold
  · obtain ⟨s3, hend, hrep3, hpull0, hset3, hsp3, hitems3, hperm3⟩ :=
      end_spec_internal le _ s2 R xs hinv2' hcond.1 hcond.2
    have hcalc : merge_sorter.calc_ le s3
        = Except.ok { s3 with pull_prepared := true } := by
      rw [calc_eq le s3 hset3, hrep3]
      rfl
    have hlen : s3.m_currentRunItems.length = xs.length := hperm3.length_eq
    have hpull : merge_sorter.pullAllF le (xs.length + 1)
        { s3 with pull_prepared := true } = Except.ok s3.m_currentRunItems := by
      have hstep := pullAll_internal le (xs.length + 1)
        { s3 with pull_prepared := true } rfl hrep3 (by
          show s3.m_currentRunItems.length - s3.m_itemsPulled + 1 ≤ xs.length + 1
          omega)
      rw [hstep]
      show Except.ok (s3.m_currentRunItems.drop s3.m_itemsPulled)
        = Except.ok s3.m_currentRunItems
      rw [hpull0, List.drop_zero]
    refine ⟨s3.m_currentRunItems, ?_, hperm3, ?_⟩
    · show ((merge_sorter.begin (merge_sorter.set_parameters
          (merge_sorter.mk0 (α := α)) runLength fanout)) >>= fun t1 =>
        merge_sorter.pushAll le t1 xs >>= fun t2 =>
        merge_sorter.end_ le t2 >>= fun t3 =>
        merge_sorter.calc_ le t3 >>= fun t4 =>
        merge_sorter.pullAllF le (xs.length + 1) t4)
          = Except.ok s3.m_currentRunItems
      rw [hbegin]
      simp only [ok_bind]
      rw [hpush]
      simp only [ok_bind]
      rw [hend]
      simp only [ok_bind]
      rw [hcalc]
      simp only [ok_bind]
      exact hpull
    · rw [hitems3]
      exact sortLe_sorted le htot htrans _
  · obtain ⟨s3, hend, hrep3, hset3, hfin3, hlev3, hne3, hperm3⟩ :=
      end_spec_external le htot htrans _ hp s2 R xs hinv2' hcond
    have hcalc : merge_sorter.calc_ le s3
        = Except.ok (merge_sorter.prepare_pull le s3) := by
      rw [calc_eq le s3 hset3, hrep3]
      rfl
    obtain ⟨hprep4, hrep4, hitems4, hpull4, hsort4, hperm4⟩ :=
      prepare_pull_spec le htot htrans _ hp s3
        (R ++ [sortLe le s2.m_currentRunItems]) hlev3 hne3 hfin3
    have hlen : totalLen (merge_sorter.prepare_pull le s3).m_mergerStreams
        = xs.length := by
      rw [totalLen_eq_length_flatten, hperm4.length_eq, hperm3.length_eq]
    have hpull : merge_sorter.pullAllF le (xs.length + 1)
        (merge_sorter.prepare_pull le s3)
        = Except.ok (kmerge le (merge_sorter.prepare_pull le s3).m_mergerStreams) :=
      pullAll_external le (xs.length + 1) _ hprep4
        (by rw [hrep4]; exact hrep3) (by rw [hlen])
    refine ⟨kmerge le (merge_sorter.prepare_pull le s3).m_mergerStreams, ?_,
      ((kmerge_perm le _).trans hperm4).trans hperm3, ?_⟩
    · show ((merge_sorter.begin (merge_sorter.set_parameters
          (merge_sorter.mk0 (α := α)) runLength fanout)) >>= fun t1 =>
        merge_sorter.pushAll le t1 xs >>= fun t2 =>
        merge_sorter.end_ le t2 >>= fun t3 =>
        merge_sorter.calc_ le t3 >>= fun t4 =>
        merge_sorter.pullAllF le (xs.length + 1) t4)
          = Except.ok (kmerge le (merge_sorter.prepare_pull le s3).m_mergerStreams)
      rw [hbegin]
      simp only [ok_bind]
      rw [hpush]
      simp only [ok_bind]
      rw [hend]
      simp only [ok_bind]
      rw [hcalc]
      simp only [ok_bind]
      exact hpull
    · exact kmerge_sorted le htot htrans _ hsort4


/-! ## Concrete instances used by the claim witnesses -/

/-- The usual order on naturals as a boolean comparator. -/
def natLe : Nat → Nat → Bool := fun a b => decide (a ≤ b)

theorem natLe_total : ∀ a b, natLe a b = true ∨ natLe b a = true := by
  intro a b
  simp only [natLe, decide_eq_true_eq]
  exact Nat.le_total a b

theorem natLe_trans :
    ∀ a b c, natLe a b = true → natLe b c = true → natLe a c = true := by
  intro a b c
  simp only [natLe, decide_eq_true_eq]
  omega

/-- Whether an `Except` computation succeeded. -/
def exceptOk {ε β : Type _} : Except ε β → Bool
  | Except.ok _ => true
  | Except.error _ => false

/-- The `i`-th merge group: chunk `i` is the slice of `f` consecutive runs
starting at run `i · f`. -/
theorem chunks_getD (f : Nat) (hf : 1 ≤ f) {β : Type _} :
    ∀ (i : Nat) (l : List β), i < numChunks f l.length →
      (chunks f l).getD i [] = (l.drop (i * f)).take f := by
  intro i
  induction i with
  | zero =>
    intro l hi
    have hne : l ≠ [] := by
      intro h
      rw [h] at hi
      simp only [List.length_nil, numChunks_zero f hf] at hi
      omega
    rw [chunks_cons f hf l hne]
    simp
  | succ i ih =>
    intro l hi
    have hne : l ≠ [] := by
      intro h
      rw [h] at hi
      simp only [List.length_nil, numChunks_zero f hf] at hi
      omega
    have hlen : 1 ≤ l.length := by
      rcases l with _ | ⟨x, xs⟩
      · exact absurd rfl hne
      · simp
    rw [chunks_cons f hf l hne]
    show (chunks f (l.drop f)).getD i [] = _
    rw [ih (l.drop f) (by
      rw [List.length_drop]
      rw [numChunks_step f hf l.length hlen] at hi
      omega)]
    rw [List.drop_drop, show f + i * f = (i + 1) * f by ring]

/-! ## The binary search of `calculate_fanout` -/

/-- Loop invariant of the `calculate_fanout` binary search: the low end
satisfies the usage bound (or never moved off 2), the high end fails it (or
never moved off 251), and the result keeps both properties. -/
theorem calculate_fanout_go_spec (mm : MemModel) (m : Nat) :
    ∀ (fuel lo hi : Nat), 2 ≤ lo → lo < hi → hi ≤ 251 → hi - lo ≤ fuel + 1 →
      (lo = 2 ∨ fanout_memory_usage mm lo < m) →
      (hi = 251 ∨ ¬ fanout_memory_usage mm hi < m) →
      2 ≤ calculate_fanout_go mm m fuel lo hi ∧
      calculate_fanout_go mm m fuel lo hi + 1 ≤ 251 ∧
      (calculate_fanout_go mm m fuel lo hi = 2
        ∨ fanout_memory_usage mm (calculate_fanout_go mm m fuel lo hi) < m) ∧
      (calculate_fanout_go mm m fuel lo hi + 1 = 251
        ∨ ¬ fanout_memory_usage mm (calculate_fanout_go mm m fuel lo hi + 1) < m) := by
  intro fuel
  induction fuel with
  | zero =>
    intro lo hi h2 hlh hh251 hfuel hlo hhi
    have hhi1 : hi = lo + 1 := by omega
    simp only [calculate_fanout_go]
    refine ⟨h2, by omega, hlo, ?_⟩
    rw [← hhi1]
    exact hhi
  | succ fuel ih =>
    intro lo hi h2 hlh hh251 hfuel hlo hhi
    simp only [calculate_fanout_go]
    by_cases hcond : lo < hi - 1
    · rw [if_pos hcond]
      have hmid1 : lo < lo + (hi - lo) / 2 := by omega
      have hmid2 : lo + (hi - lo) / 2 < hi := by omega
      by_cases husage : fanout_memory_usage mm (lo + (hi - lo) / 2) < m
      · rw [if_pos husage]
        exact ih (lo + (hi - lo) / 2) hi (by omega) hmid2 hh251 (by omega)
          (Or.inr husage) hhi
      · rw [if_neg husage]
        exact ih lo (lo + (hi - lo) / 2) h2 hmid1 (by omega) (by omega) hlo
          (Or.inr husage)
    · rw [if_neg hcond]
      have hhi1 : hi = lo + 1 := by omega
      refine ⟨h2, by omega, hlo, ?_⟩
      rw [← hhi1]
      exact hhi

/-- The result of `calculate_fanout` lies in `[2, 250]`, its memory usage is
strictly below the budget unless it is the lower bound 2, and the next
fanout up fails the strict bound unless the result is the upper bound. -/
theorem calculate_fanout_spec (mm : MemModel) (m : Nat) :
    2 ≤ calculate_fanout mm m ∧ calculate_fanout mm m ≤ 250 ∧
    (calculate_fanout mm m = 2
      ∨ fanout_memory_usage mm (calculate_fanout mm m) < m) ∧
    (calculate_fanout mm m = 250
      ∨ ¬ fanout_memory_usage mm (calculate_fanout mm m + 1) < m) := by
  unfold calculate_fanout
  have h := calculate_fanout_go_spec mm m 249 2 251 (by omega) (by omega)
    (by omega) (by omega) (Or.inl rfl) (Or.inl rfl)
  obtain ⟨h1, h2, h3, h4⟩ := h
  refine ⟨h1, by omega, h3, ?_⟩
  rcases h4 with h | h
  · exact Or.inl (by omega)
  · exact Or.inr h

/-- With a monotone usage function, `calculate_fanout` dominates every
fanout in range whose usage is strictly below the budget. -/
theorem calculate_fanout_largest (mm : MemModel) (m : Nat)
    (hmono : ∀ i j, i ≤ j → fanout_memory_usage mm i ≤ fanout_memory_usage mm j)
    (f : Nat) (h2f : 2 ≤ f) (hf250 : f ≤ 250)
    (husage : fanout_memory_usage mm f < m) :
    f ≤ calculate_fanout mm m := by
  by_contra hcon
  obtain ⟨hge2, hle250, hsat, hnext⟩ := calculate_fanout_spec mm m
  rcases hnext with h250 | hno
  · omega
  · exact hno (Nat.lt_of_le_of_lt (hmono _ f (by omega)) husage)

/-- The fanout the spec describes (definition follows the spec's words, for
comparison with `calculate_fanout`): the largest `f` in `[2, 251)` whose
memory usage is at most the available memory. -/
def spec_fanout (mm : MemModel) (m : Nat) : Nat :=
  (List.range 251).foldl
    (fun acc f => if 2 ≤ f ∧ fanout_memory_usage mm f ≤ m then f else acc) 2

/-- The physical read offset the spec claims for a run (definition follows
the spec's words, for comparison with `open_run_file_read`):
`run_length(level) × (run_number mod fanout)`. -/
def spec_run_offset (runLength fanout mergeLevel runNumber : Nat) : Nat :=
  calculate_run_length runLength fanout mergeLevel * (runNumber % fanout)

/-- A memory model whose merge-heap usage is one unit per stream and whose
other usages are zero, so `fanout_memory_usage` is the identity. -/
def linearMem : MemModel :=
  { mergerUsage := fun f => f, streamUsage := 0, tempFileSize := 0, itemSize := 1 }

/-- Level-0 temp-file bank holding the three one-item runs `[10]`, `[11]`,
`[12]` written by `write_run` in run order. -/
def C3files : Nat → List Nat :=
  merge_sorter.write_run
    (merge_sorter.write_run
      (merge_sorter.write_run (fun _ => []) 2 0 0 [10]) 2 0 1 [11]) 2 0 2 [12]


/-! ## The claims -/

/-- C1: for every input list pushed between `begin` and `end` (parameters
previously set), the sequence pulled after `calc` while `can_pull` holds is
a permutation of the input and non-decreasing under the comparator. -/
theorem C1_sorter_correct (le : α → α → Bool)
    (htot : ∀ a b, le a b = true ∨ le b a = true)
    (htrans : ∀ a b c, le a b = true → le b c = true → le a c = true)
    (runLength fanout : Nat) (h1 : 1 ≤ runLength) (h2 : 2 ≤ fanout)
    (xs : List α) :
    ∃ out, merge_sorter.run_sorter le runLength fanout xs = Except.ok out
      ∧ out.Perm xs ∧ SortedLe le out :=
  run_sorter_correct le htot htrans runLength fanout h1 h2 xs

theorem C1_sorter_correct_witness :
    (1 ≤ 2 ∧ 2 ≤ 2) ∧
    ∃ out, merge_sorter.run_sorter natLe 2 2 [3, 1, 4, 1, 5, 9, 2, 6]
        = Except.ok out
      ∧ out.Perm [3, 1, 4, 1, 5, 9, 2, 6] ∧ SortedLe natLe out :=
  ⟨⟨by decide, by decide⟩,
   C1_sorter_correct natLe natLe_total natLe_trans 2 2 (by decide) (by decide)
     [3, 1, 4, 1, 5, 9, 2, 6]⟩

/-- C4: the run length at level `L` is `runLength · fanout^L`, and a reader
of run `r` at level `L` takes the file chosen by `run_file_index` from item
offset `run_length(L) · (r div fanout)` on. -/
theorem C4_run_length_and_seek (s : merge_sorter α) (L r : Nat) :
    calculate_run_length s.p.runLength s.p.fanout L
        = s.p.runLength * s.p.fanout ^ L
    ∧ merge_sorter.open_run_file_read s L r
        = (s.m_runFiles (run_file_index s.p.fanout L r)).drop
            (calculate_run_length s.p.runLength s.p.fanout L * (r / s.p.fanout)) :=
  ⟨calculate_run_length_eq s.p.runLength s.p.fanout L, rfl⟩

/-- C3 (amended): run `r` of level `L` is stored in the temp file with index
`(L mod 2)·fanout + (r mod fanout)`, at item offset
`run_length(L) · (r div fanout)` — not `r mod fanout` — inside that file:
reading there recovers the run. -/
theorem C3_run_storage (s : merge_sorter α) (L r : Nat) (R : List (List α))
    (hf : 1 ≤ s.p.fanout)
    (hold : FilesHold s.p.fanout s.m_runFiles L R) (hr : r < R.length)
    (hfull : FullLens (calculate_run_length s.p.runLength s.p.fanout L) R) :
    run_file_index s.p.fanout L r = (L % 2) * s.p.fanout + r % s.p.fanout
    ∧ merge_sorter.open_run_file_read s L r
        = (s.m_runFiles ((L % 2) * s.p.fanout + r % s.p.fanout)).drop
            (calculate_run_length s.p.runLength s.p.fanout L * (r / s.p.fanout))
    ∧ (merge_sorter.open_run_file_read s L r).take
          (calculate_run_length s.p.runLength s.p.fanout L) = R.getD r [] :=
  ⟨rfl, rfl, open_run_file_read_correct s L r R hf hold hr hfull⟩

/-- State for the C3 witness: parameters `runLength = 1`, `fanout = 2` with
the bank `C3files` holding the three runs `[10]`, `[11]`, `[12]` of
level 0. -/
def sC3 : merge_sorter Nat :=
  { merge_sorter.set_parameters (merge_sorter.mk0 (α := Nat)) 1 2 with
    m_runFiles := C3files }

theorem C3_run_storage_witness :
    (1 ≤ sC3.p.fanout
      ∧ FilesHold sC3.p.fanout sC3.m_runFiles 0 [[10], [11], [12]]
      ∧ 2 < ([[10], [11], [12]] : List (List Nat)).length
      ∧ FullLens (calculate_run_length sC3.p.runLength sC3.p.fanout 0)
          [[10], [11], [12]])
    ∧ (run_file_index sC3.p.fanout 0 2 = (0 % 2) * sC3.p.fanout + 2 % sC3.p.fanout
      ∧ merge_sorter.open_run_file_read sC3 0 2
          = (sC3.m_runFiles ((0 % 2) * sC3.p.fanout + 2 % sC3.p.fanout)).drop
              (calculate_run_length sC3.p.runLength sC3.p.fanout 0 * (2 / sC3.p.fanout))
      ∧ (merge_sorter.open_run_file_read sC3 0 2).take
            (calculate_run_length sC3.p.runLength sC3.p.fanout 0)
          = ([[10], [11], [12]] : List (List Nat)).getD 2 []) :=
  ⟨⟨by decide,
    by intro c hc hR; have hc2 : c < 2 := hc; interval_cases c <;> rfl,
    by decide,
    ⟨rfl, rfl, Nat.one_pos, Nat.le_refl 1⟩⟩,
   C3_run_storage sC3 0 2 [[10], [11], [12]] (by decide)
     (by intro c hc hR; have hc2 : c < 2 := hc; interval_cases c <;> rfl)
     (by decide)
     ⟨rfl, rfl, Nat.one_pos, Nat.le_refl 1⟩⟩

theorem C3_counterexample :
    ((C3files (run_file_index 2 0 2)).drop (spec_run_offset 1 2 0 2)).take
        (calculate_run_length 1 2 0) = [10]
    ∧ ((C3files (run_file_index 2 0 2)).drop (spec_run_offset 1 2 0 2)).take
        (calculate_run_length 1 2 0) ≠ [12]
    ∧ ((C3files (run_file_index 2 0 2)).drop
          (calculate_run_length 1 2 0 * (2 / 2))).take (calculate_run_length 1 2 0)
        = [12] := by
  decide


/-- C7 (amended): `calculate_fanout` binary-searches `[2, 251)` for the
largest fanout whose memory usage is strictly below — not at most — the
budget (when usage is monotone), and `calculate_parameters` sets `fanout`
from `m3` and `finalFanout` from `m4` capped by `fanout`. -/
theorem C7_fanout_search (mm : MemModel) (m2 m3 m4 : Nat)
    (hmono : ∀ i j, i ≤ j →
      fanout_memory_usage mm i ≤ fanout_memory_usage mm j) :
    (2 ≤ calculate_fanout mm m3 ∧ calculate_fanout mm m3 ≤ 250)
    ∧ (calculate_fanout mm m3 = 2
        ∨ fanout_memory_usage mm (calculate_fanout mm m3) < m3)
    ∧ (∀ f, 2 ≤ f → f ≤ 250 → fanout_memory_usage mm f < m3 →
        f ≤ calculate_fanout mm m3)
    ∧ (calculate_parameters mm m2 m3 m4).fanout = calculate_fanout mm m3
    ∧ (calculate_parameters mm m2 m3 m4).finalFanout
        = min (calculate_fanout mm m4) (calculate_fanout mm m3) := by
  obtain ⟨h1, h2, h3, h4⟩ := calculate_fanout_spec mm m3
  refine ⟨⟨h1, h2⟩, h3,
    fun f h2f hf250 husage =>
      calculate_fanout_largest mm m3 hmono f h2f hf250 husage, rfl, ?_⟩
  show (if calculate_fanout mm m3 < calculate_fanout mm m4
        then calculate_fanout mm m3 else calculate_fanout mm m4)
      = min (calculate_fanout mm m4) (calculate_fanout mm m3)
  by_cases h : calculate_fanout mm m3 < calculate_fanout mm m4
  · rw [if_pos h, Nat.min_eq_right (Nat.le_of_lt h)]
  · rw [if_neg h, Nat.min_eq_left (by omega)]

theorem C7_fanout_search_witness :
    (∀ i j, i ≤ j →
      fanout_memory_usage linearMem i ≤ fanout_memory_usage linearMem j)
    ∧ ((2 ≤ calculate_fanout linearMem 5 ∧ calculate_fanout linearMem 5 ≤ 250)
      ∧ (calculate_fanout linearMem 5 = 2
          ∨ fanout_memory_usage linearMem (calculate_fanout linearMem 5) < 5)
      ∧ (∀ f, 2 ≤ f → f ≤ 250 → fanout_memory_usage linearMem f < 5 →
          f ≤ calculate_fanout linearMem 5)
      ∧ (calculate_parameters linearMem 9 5 4).fanout = calculate_fanout linearMem 5
      ∧ (calculate_parameters linearMem 9 5 4).finalFanout
          = min (calculate_fanout linearMem 4) (calculate_fanout linearMem 5)) :=
  ⟨fun i j h => by
      simpa only [fanout_memory_usage, linearMem, Nat.add_zero, Nat.mul_zero]
        using h,
   C7_fanout_search linearMem 9 5 4 (fun i j h => by
      simpa only [fanout_memory_usage, linearMem, Nat.add_zero, Nat.mul_zero]
        using h)⟩

set_option maxRecDepth 4000 in
theorem C7_counterexample :
    fanout_memory_usage linearMem 5 ≤ 5 ∧ 2 ≤ 5 ∧ 5 < 251
    ∧ calculate_fanout linearMem 5 = 4
    ∧ calculate_fanout linearMem 5 < 5
    ∧ spec_fanout linearMem 5 = 5 := by
  decide

/-- C8 (amended): only pulling while unprepared is detected — `pull` and
`can_pull` before `calc` report a `StateError` — while `push` after `end`
and `calc` before `end` proceed without an error (see the
counterexample). -/
theorem C8_state_errors (le : α → α → Bool) (s : merge_sorter α)
    (hprep : s.pull_prepared = false) :
    merge_sorter.pull le s
        = Except.error (TpError.stateError "Pull not prepared")
    ∧ merge_sorter.can_pull le s
        = Except.error (TpError.stateError "Pull not prepared") := by
  unfold merge_sorter.pull merge_sorter.can_pull tp_assert
  rw [hprep]
  exact ⟨rfl, rfl⟩

/-- State for the C8 witness: parameters set, nothing pulled yet, so
`pull_prepared` is still false. -/
def sC8 : merge_sorter Nat :=
  merge_sorter.set_parameters (merge_sorter.mk0 (α := Nat)) 2 2

theorem C8_state_errors_witness :
    sC8.pull_prepared = false
    ∧ (merge_sorter.pull natLe sC8
          = Except.error (TpError.stateError "Pull not prepared")
      ∧ merge_sorter.can_pull natLe sC8
          = Except.error (TpError.stateError "Pull not prepared")) :=
  ⟨rfl, C8_state_errors natLe sC8 rfl⟩

theorem C8_counterexample :
    exceptOk (do
        let s1 ← merge_sorter.begin
          (merge_sorter.set_parameters (merge_sorter.mk0 (α := Nat)) 2 2)
        let s2 ← merge_sorter.push natLe s1 1
        let s3 ← merge_sorter.end_ natLe s2
        merge_sorter.push natLe s3 5) = true
    ∧ exceptOk (do
        let s1 ← merge_sorter.begin
          (merge_sorter.set_parameters (merge_sorter.mk0 (α := Nat)) 2 2)
        merge_sorter.calc_ natLe s1) = true :=
  ⟨rfl, rfl⟩


/-- C2: called with zero spilled runs and a residue within
`internalReportThreshold`, `end()` enters internal mode: `calc()` only marks
pulling prepared, `can_pull` compares the items-pulled counter with the
buffered count, and pulling returns the buffered items, sorted, straight
from memory; in every other case `end()` spills the residue as one more
external run. -/
theorem C2_internal_mode (le : α → α → Bool)
    (htot : ∀ a b, le a b = true ∨ le b a = true)
    (htrans : ∀ a b c, le a b = true → le b c = true → le a c = true)
    (p : sort_parameters) (hp : ParamsOk p) (s : merge_sorter α)
    (R : List (List α)) (xs : List α) (hinv : Phase2Inv le p s R xs) :
    (s.m_finishedRuns = 0
        ∧ s.m_currentRunItems.length ≤ p.internalReportThreshold →
      ∃ s', merge_sorter.end_ le s = Except.ok s'
        ∧ s'.m_reportInternal = true
        ∧ merge_sorter.calc_ le s' = Except.ok { s' with pull_prepared := true }
        ∧ (∀ t : merge_sorter α, t.pull_prepared = true →
            t.m_reportInternal = true →
            merge_sorter.can_pull le t
              = Except.ok (decide (t.m_itemsPulled < t.m_currentRunItems.length)))
        ∧ merge_sorter.pullAllF le (xs.length + 1) { s' with pull_prepared := true }
            = Except.ok s'.m_currentRunItems
        ∧ s'.m_currentRunItems = sortLe le s.m_currentRunItems
        ∧ s'.m_currentRunItems.Perm xs ∧ SortedLe le s'.m_currentRunItems)
    ∧ (¬(s.m_finishedRuns = 0
          ∧ s.m_currentRunItems.length ≤ p.internalReportThreshold) →
      ∃ s', merge_sorter.end_ le s = Except.ok s'
        ∧ s'.m_reportInternal = false
        ∧ s'.m_finishedRuns = R.length + 1) := by
  constructor
  · intro hcond
    obtain ⟨s', hend, hrep, hpull0, hset, hsp, hitems, hperm⟩ :=
      end_spec_internal le p s R xs hinv hcond.1 hcond.2
    have hcalc : merge_sorter.calc_ le s'
        = Except.ok { s' with pull_prepared := true } := by
      rw [calc_eq le s' hset, hrep]
      rfl
    have hcan : ∀ t : merge_sorter α, t.pull_prepared = true →
        t.m_reportInternal = true →
        merge_sorter.can_pull le t
          = Except.ok (decide (t.m_itemsPulled < t.m_currentRunItems.length)) := by
      intro t hp1 hr1
      rw [can_pull_eq le t hp1, hr1]
      rfl
    have hlen : s'.m_currentRunItems.length = xs.length := hperm.length_eq
    have hpullAll : merge_sorter.pullAllF le (xs.length + 1)
        { s' with pull_prepared := true } = Except.ok s'.m_currentRunItems := by
      have hstep := pullAll_internal le (xs.length + 1)
        { s' with pull_prepared := true } rfl hrep (by
          show s'.m_currentRunItems.length - s'.m_itemsPulled + 1 ≤ xs.length + 1
          omega)
      rw [hstep]
      show Except.ok (s'.m_currentRunItems.drop s'.m_itemsPulled)
        = Except.ok s'.m_currentRunItems
      rw [hpull0, List.drop_zero]
    refine ⟨s', hend, hrep, hcalc, hcan, hpullAll, hitems, hperm, ?_⟩
    rw [hitems]
    exact sortLe_sorted le htot htrans _
  · intro hcond
    obtain ⟨s', hend, hrep, hset, hfin, hlev, hne, hperm⟩ :=
      end_spec_external le htot htrans p hp s R xs hinv hcond
    refine ⟨s', hend, hrep, ?_⟩
    rw [hfin]
    simp

/-- State for the C2 witness: parameters `runLength = 2`, `fanout = 2`, the
run buffer sized by `begin` and still empty. -/
def sC2 : merge_sorter Nat :=
  { merge_sorter.set_parameters (merge_sorter.mk0 (α := Nat)) 2 2 with
    m_runBufferCapacity := 2 }

theorem C2_internal_mode_witness :
    (ParamsOk sC2.p ∧ Phase2Inv natLe sC2.p sC2 [] [])
    ∧ ((sC2.m_finishedRuns = 0
          ∧ sC2.m_currentRunItems.length ≤ sC2.p.internalReportThreshold →
        ∃ s', merge_sorter.end_ natLe sC2 = Except.ok s'
          ∧ s'.m_reportInternal = true
          ∧ merge_sorter.calc_ natLe s'
              = Except.ok { s' with pull_prepared := true }
          ∧ (∀ t : merge_sorter Nat, t.pull_prepared = true →
              t.m_reportInternal = true →
              merge_sorter.can_pull natLe t
                = Except.ok
                    (decide (t.m_itemsPulled < t.m_currentRunItems.length)))
          ∧ merge_sorter.pullAllF natLe (([] : List Nat).length + 1)
                { s' with pull_prepared := true }
              = Except.ok s'.m_currentRunItems
          ∧ s'.m_currentRunItems = sortLe natLe sC2.m_currentRunItems
          ∧ s'.m_currentRunItems.Perm [] ∧ SortedLe natLe s'.m_currentRunItems)
      ∧ (¬(sC2.m_finishedRuns = 0
            ∧ sC2.m_currentRunItems.length ≤ sC2.p.internalReportThreshold) →
        ∃ s', merge_sorter.end_ natLe sC2 = Except.ok s'
          ∧ s'.m_reportInternal = false
          ∧ s'.m_finishedRuns = ([] : List (List Nat)).length + 1)) :=
  ⟨⟨⟨by decide, by decide, by decide, by decide⟩,
    rfl, rfl, rfl, rfl,
    by intro c hc hR; simp at hR,
    by intro l hl; simp at hl,
    by intro l hl; simp at hl,
    by show (([] : List (List Nat)).flatten ++ ([] : List Nat)).Perm []; simp,
    by decide,
    fun h => absurd rfl h⟩,
   C2_internal_mode natLe natLe_total natLe_trans sC2.p
     ⟨by decide, by decide, by decide, by decide⟩ sC2 [] []
     ⟨rfl, rfl, rfl, rfl,
      by intro c hc hR; simp at hR,
      by intro l hl; simp at hl,
      by intro l hl; simp at hl,
      by show (([] : List (List Nat)).flatten ++ ([] : List Nat)).Perm []; simp,
      by decide,
      fun h => absurd rfl h⟩⟩


/-- C5: one pass of the phase-3 loop merges the runs of level `L` group by
group — group `i` is the `fanout`-wide slice starting at run `i · fanout` —
into single runs of level `L + 1`, and the surrounding `while` loop
terminates at a level holding between one and `fanout` runs. -/
theorem C5_level_loop (le : α → α → Bool)
    (htot : ∀ a b, le a b = true ∨ le b a = true)
    (htrans : ∀ a b c, le a b = true → le b c = true → le a c = true)
    (p : sort_parameters) (hp : ParamsOk p) (s : merge_sorter α) (L : Nat)
    (R : List (List α)) (hinv : LevelInv le p s L R) (hne : R ≠ []) :
    (∃ s', merge_sorter.merge_level le s L R.length
        = (numChunks p.fanout R.length, s')
      ∧ LevelInv le p s' (L + 1) ((chunks p.fanout R).map (kmerge le))
      ∧ ∀ i, i < numChunks p.fanout R.length →
          (chunks p.fanout R).getD i [] = (R.drop (i * p.fanout)).take p.fanout)
    ∧ (∀ fuel, R.length ≤ fuel →
      ∃ Lf Rf s', merge_sorter.prepare_pull_go le fuel L R.length s
          = (Lf, Rf.length, s')
        ∧ 1 ≤ Rf.length ∧ Rf.length ≤ p.fanout
        ∧ LevelInv le p s' Lf Rf ∧ Rf.flatten.Perm R.flatten) := by
  constructor
  · obtain ⟨s', hrun, haux, hinv'⟩ := merge_level_spec le htot htrans p hp s L R hinv hne
    refine ⟨s', hrun, hinv', ?_⟩
    intro i hi
    have hlen : numChunks p.fanout R.length = numChunks p.fanout R.length := rfl
    exact chunks_getD p.fanout (by
        obtain ⟨hprl, hpf, hpff, hpffle⟩ := hp
        omega) i R hi
  · intro fuel hfuel
    obtain ⟨Lf, Rf, s', hrun, hinv', hne', hle', hperm', haux'⟩ :=
      prepare_pull_go_spec le htot htrans p hp fuel L s R hinv hne hfuel
    exact ⟨Lf, Rf, s', hrun, by
        have := List.length_pos.2 hne'
        omega, hle', hinv', hperm'⟩

/-- Bank of three one-item runs `[1]`, `[2]`, `[3]` at level 0, as
`write_run` lays them out with fanout 2. -/
def C56files : Nat → List Nat :=
  merge_sorter.write_run
    (merge_sorter.write_run
      (merge_sorter.write_run (fun _ => []) 2 0 0 [1]) 2 0 1 [2]) 2 0 2 [3]

/-- State for the C5 witness: parameters `runLength = 1`, `fanout = 2`,
bank `C56files` holding three runs at level 0. -/
def sC5 : merge_sorter Nat :=
  { merge_sorter.set_parameters (merge_sorter.mk0 (α := Nat)) 1 2 with
    m_runFiles := C56files, m_finishedRuns := 3 }

theorem C5_level_loop_witness :
    (ParamsOk sC5.p ∧ LevelInv natLe sC5.p sC5 0 [[1], [2], [3]]
      ∧ ([[1], [2], [3]] : List (List Nat)) ≠ [])
    ∧ ((∃ s', merge_sorter.merge_level natLe sC5 0
            ([[1], [2], [3]] : List (List Nat)).length
          = (numChunks sC5.p.fanout ([[1], [2], [3]] : List (List Nat)).length, s')
        ∧ LevelInv natLe sC5.p s' 1
            ((chunks sC5.p.fanout [[1], [2], [3]]).map (kmerge natLe))
        ∧ ∀ i, i < numChunks sC5.p.fanout
              ([[1], [2], [3]] : List (List Nat)).length →
            (chunks sC5.p.fanout [[1], [2], [3]]).getD i []
              = (([[1], [2], [3]] : List (List Nat)).drop
                  (i * sC5.p.fanout)).take sC5.p.fanout)
      ∧ (∀ fuel, ([[1], [2], [3]] : List (List Nat)).length ≤ fuel →
        ∃ Lf Rf s', merge_sorter.prepare_pull_go natLe fuel 0
              ([[1], [2], [3]] : List (List Nat)).length sC5
            = (Lf, Rf.length, s')
          ∧ 1 ≤ Rf.length ∧ Rf.length ≤ sC5.p.fanout
          ∧ LevelInv natLe sC5.p s' Lf Rf
          ∧ Rf.flatten.Perm ([[1], [2], [3]] : List (List Nat)).flatten)) :=
  ⟨⟨⟨by decide, by decide, by decide, by decide⟩,
    ⟨rfl,
     by intro c hc hR; have hc2 : c < 2 := hc; interval_cases c <;> rfl,
     ⟨rfl, rfl, Nat.one_pos, Nat.le_refl 1⟩,
     by intro l hl; simp only [List.mem_cons, List.not_mem_nil, or_false] at hl
        rcases hl with rfl | rfl | rfl <;> simp [SortedLe]⟩,
    by decide⟩,
   C5_level_loop natLe natLe_total natLe_trans sC5.p
     ⟨by decide, by decide, by decide, by decide⟩ sC5 0 [[1], [2], [3]]
     ⟨rfl,
      by intro c hc hR; have hc2 : c < 2 := hc; interval_cases c <;> rfl,
      ⟨rfl, rfl, Nat.one_pos, Nat.le_refl 1⟩,
      by intro l hl; simp only [List.mem_cons, List.not_mem_nil, or_false] at hl
         rcases hl with rfl | rfl | rfl <;> simp [SortedLe]⟩
     (by decide)⟩

/-- C6: with at most `finalFanout` surviving runs the final merge heap is
opened over exactly those runs and the bank is untouched; with more, the
trailing `runCount − (finalFanout − 1)` runs from run `finalFanout − 1` on
are first merged into run 0 of the next level, and the heap is opened over
the `finalFanout − 1` leading runs plus that long run. -/
theorem C6_final_merger (le : α → α → Bool) (p : sort_parameters)
    (hp : ParamsOk p) (s : merge_sorter α) (L : Nat) (R : List (List α))
    (hinv : LevelInv le p s L R) (hne : R ≠ []) (hRf : R.length ≤ p.fanout) :
    (R.length ≤ p.finalFanout →
      (merge_sorter.initialize_final_merger le s L R.length).m_mergerStreams = R
      ∧ (merge_sorter.initialize_final_merger le s L R.length).m_runFiles
          = s.m_runFiles)
    ∧ (p.finalFanout < R.length →
      (merge_sorter.initialize_final_merger le s L R.length).m_mergerStreams
          = R.take (p.finalFanout - 1)
            ++ [kmerge le (R.drop (p.finalFanout - 1))]
      ∧ (R.drop (p.finalFanout - 1)).length = R.length - (p.finalFanout - 1)
      ∧ (merge_sorter.initialize_final_merger le s L R.length).m_runFiles
          = merge_sorter.write_run s.m_runFiles p.fanout (L + 1) 0
              (kmerge le (R.drop (p.finalFanout - 1)))) := by
  obtain ⟨haux, hgt, hle⟩ := initialize_final_merger_spec le p hp s L R hinv hne hRf
  refine ⟨hle, fun hc => ?_⟩
  obtain ⟨hstreams, hfiles⟩ := hgt hc
  exact ⟨hstreams, by rw [List.length_drop], hfiles⟩

/-- State for the C6 witness: same bank as C5 but only the two runs `[1]`,
`[2]` of level 0 are considered, within the final fanout. -/
def sC6 : merge_sorter Nat :=
  { merge_sorter.set_parameters (merge_sorter.mk0 (α := Nat)) 1 2 with
    m_runFiles :=
      merge_sorter.write_run
        (merge_sorter.write_run (fun _ => []) 2 0 0 [1]) 2 0 1 [2]
    m_finishedRuns := 2 }

theorem C6_final_merger_witness :
    (ParamsOk sC6.p ∧ LevelInv natLe sC6.p sC6 0 [[1], [2]]
      ∧ ([[1], [2]] : List (List Nat)) ≠ []
      ∧ ([[1], [2]] : List (List Nat)).length ≤ sC6.p.fanout)
    ∧ ((([[1], [2]] : List (List Nat)).length ≤ sC6.p.finalFanout →
        (merge_sorter.initialize_final_merger natLe sC6 0
            ([[1], [2]] : List (List Nat)).length).m_mergerStreams = [[1], [2]]
        ∧ (merge_sorter.initialize_final_merger natLe sC6 0
            ([[1], [2]] : List (List Nat)).length).m_runFiles = sC6.m_runFiles)
      ∧ (sC6.p.finalFanout < ([[1], [2]] : List (List Nat)).length →
        (merge_sorter.initialize_final_merger natLe sC6 0
            ([[1], [2]] : List (List Nat)).length).m_mergerStreams
          = ([[1], [2]] : List (List Nat)).take (sC6.p.finalFanout - 1)
            ++ [kmerge natLe (([[1], [2]] : List (List Nat)).drop
                  (sC6.p.finalFanout - 1))]
        ∧ (([[1], [2]] : List (List Nat)).drop (sC6.p.finalFanout - 1)).length
            = ([[1], [2]] : List (List Nat)).length - (sC6.p.finalFanout - 1)
        ∧ (merge_sorter.initialize_final_merger natLe sC6 0
            ([[1], [2]] : List (List Nat)).length).m_runFiles
          = merge_sorter.write_run sC6.m_runFiles sC6.p.fanout (0 + 1) 0
              (kmerge natLe (([[1], [2]] : List (List Nat)).drop
                  (sC6.p.finalFanout - 1))))) :=
  ⟨⟨⟨by decide, by decide, by decide, by decide⟩,
    ⟨rfl,
     by intro c hc hR; have hc2 : c < 2 := hc; interval_cases c <;> rfl,
     ⟨rfl, Nat.one_pos, Nat.le_refl 1⟩,
     by intro l hl; simp only [List.mem_cons, List.not_mem_nil, or_false] at hl
        rcases hl with rfl | rfl <;> simp [SortedLe]⟩,
    by decide, by decide⟩,
   C6_final_merger natLe sC6.p
     ⟨by decide, by decide, by decide, by decide⟩ sC6 0 [[1], [2]]
     ⟨rfl,
      by intro c hc hR; have hc2 : c < 2 := hc; interval_cases c <;> rfl,
      ⟨rfl, Nat.one_pos, Nat.le_refl 1⟩,
      by intro l hl; simp only [List.mem_cons, List.not_mem_nil, or_false] at hl
         rcases hl with rfl | rfl <;> simp [SortedLe]⟩
     (by decide) (by decide)⟩


/-! ## `pipelining/parallel.h`: the worker flush protocol and the producer

The concurrency of `parallel.h` is modelled as traces: the shared state a
thread reads at each check (its own worker state and the global `done`
flag, both only changed by others under the mutex) is an observation, and
the actions the thread takes are events in order. -/

/-- A worker's state in `parallel_state_base::states`. -/
inductive WState where
  | IDLE
  | PROCESSING
  | OUTPUTTING
  deriving Repr, DecidableEq

/-- What `flush_buffer_impl`'s wait loop sees at one check, under the
mutex: this worker's state and the global `done` flag. -/
structure FlushObs where
  pstate : WState
  done : Bool
  deriving Repr, DecidableEq

/-- The actions of `parallel_after::flush_buffer_impl` in order. -/
inductive FlushEvent where
  | setOutputting
  | notifyProducer
  | waitCond
  | resetBuffer
  deriving Repr, DecidableEq

/-- `parallel_after::is_done`: `IDLE` and `PROCESSING` end the wait (the
latter when the producer reassigned input directly), `OUTPUTTING` does
not. -/
def is_done (w : WState) : Bool :=
  match w with
  | WState.IDLE => true
  | WState.PROCESSING => true
  | WState.OUTPUTTING => false

/-- The `while (!is_done())` loop of `flush_buffer_impl`, one observation
per check: on `is_done` the buffer size is reset and the loop ends; still
`OUTPUTTING` with `done` set, the call returns with no reset; otherwise the
thread waits on its condition variable and checks again. -/
def flush_wait : List FlushObs → List FlushEvent
  | [] => []
  | o :: rest =>
    if is_done o.pstate then [FlushEvent.resetBuffer]
    else if o.done then []
    else FlushEvent.waitCond :: flush_wait rest

/-- `parallel_after::flush_buffer_impl`: nothing on an empty buffer;
otherwise set this worker's state to `OUTPUTTING`, notify the producer and
run the wait loop. -/
def flush_buffer_impl (outputSize : Nat) (obs : List FlushObs) :
    List FlushEvent :=
  if outputSize = 0 then []
  else FlushEvent.setOutputting :: FlushEvent.notifyProducer :: flush_wait obs

/-- C9: flushing a non-empty buffer first sets the state to `OUTPUTTING`
and notifies the producer; the buffer is reset only at a check that saw
`IDLE` or `PROCESSING`, every earlier check having seen `OUTPUTTING` with
`done` clear; while every check sees `OUTPUTTING`, the buffer is never
reset (with `done` set the call returns early instead). -/
theorem C9_flush_protocol (sz : Nat) (hsz : sz ≠ 0) (obs : List FlushObs) :
    flush_buffer_impl sz obs
        = FlushEvent.setOutputting :: FlushEvent.notifyProducer :: flush_wait obs
    ∧ (FlushEvent.resetBuffer ∈ flush_wait obs →
        ∃ i, i < obs.length
          ∧ is_done (obs.getD i ⟨WState.OUTPUTTING, false⟩).pstate = true
          ∧ ∀ j, j < i →
              (obs.getD j ⟨WState.OUTPUTTING, false⟩).pstate = WState.OUTPUTTING
              ∧ (obs.getD j ⟨WState.OUTPUTTING, false⟩).done = false)
    ∧ ((∀ o ∈ obs, o.pstate = WState.OUTPUTTING) →
        FlushEvent.resetBuffer ∉ flush_wait obs)
    ∧ flush_buffer_impl 0 obs = [] := by
  refine ⟨by rw [flush_buffer_impl, if_neg hsz], ?_, ?_, rfl⟩
  · clear hsz
    induction obs with
    | nil => intro h; exact absurd h (by simp [flush_wait])
    | cons o rest ih =>
      intro h
      rw [flush_wait] at h
      by_cases hdone : is_done o.pstate = true
      · exact ⟨0, by simp, by simpa using hdone, by omega⟩
      · rw [if_neg hdone] at h
        by_cases hflag : o.done = true
        · rw [if_pos hflag] at h
          exact absurd h (by simp)
        · rw [if_neg hflag] at h
          have hmem : FlushEvent.resetBuffer ∈ flush_wait rest := by
            simpa using h
          obtain ⟨i, hi, hdon, hpre⟩ := ih hmem
          refine ⟨i + 1, by simpa using hi, by simpa using hdon, ?_⟩
          intro j hj
          cases j with
          | zero =>
            refine ⟨?_, by simpa using hflag⟩
            show o.pstate = WState.OUTPUTTING
            cases hw : o.pstate <;> simp [is_done, hw] at hdone ⊢
          | succ j =>
            have := hpre j (by omega)
            simpa using this
  · clear hsz
    induction obs with
    | nil => intro _; simp [flush_wait]
    | cons o rest ih =>
      intro hall
      rw [flush_wait]
      have ho : o.pstate = WState.OUTPUTTING := hall o (by simp)
      rw [ho]
      show FlushEvent.resetBuffer ∉
        (if is_done WState.OUTPUTTING then [FlushEvent.resetBuffer]
         else if o.done then []
         else FlushEvent.waitCond :: flush_wait rest)
      rw [show is_done WState.OUTPUTTING = false from rfl]
      simp only [Bool.false_eq_true, if_false]
      by_cases hflag : o.done = true
      · rw [if_pos hflag]
        simp
      · rw [if_neg hflag]
        have hrest := ih fun o ho => hall o (List.mem_cons_of_mem _ ho)
        simp only [List.mem_cons]
        rintro (h | h)
        · cases h
        · exact hrest h

theorem C9_flush_protocol_witness :
    (1 : Nat) ≠ 0
    ∧ (flush_buffer_impl 1 [⟨WState.IDLE, false⟩]
        = FlushEvent.setOutputting :: FlushEvent.notifyProducer
            :: flush_wait [⟨WState.IDLE, false⟩]
    ∧ (FlushEvent.resetBuffer ∈ flush_wait [⟨WState.IDLE, false⟩] →
        ∃ i, i < ([⟨WState.IDLE, false⟩] : List FlushObs).length
          ∧ is_done (([⟨WState.IDLE, false⟩] : List FlushObs).getD i
              ⟨WState.OUTPUTTING, false⟩).pstate = true
          ∧ ∀ j, j < i →
              (([⟨WState.IDLE, false⟩] : List FlushObs).getD j
                  ⟨WState.OUTPUTTING, false⟩).pstate = WState.OUTPUTTING
              ∧ (([⟨WState.IDLE, false⟩] : List FlushObs).getD j
                  ⟨WState.OUTPUTTING, false⟩).done = false)
    ∧ ((∀ o ∈ ([⟨WState.IDLE, false⟩] : List FlushObs),
          o.pstate = WState.OUTPUTTING) →
        FlushEvent.resetBuffer ∉ flush_wait [⟨WState.IDLE, false⟩])
    ∧ flush_buffer_impl 0 [⟨WState.IDLE, false⟩] = []) :=
  ⟨by decide, C9_flush_protocol 1 (by decide) [⟨WState.IDLE, false⟩]⟩

/-! ### The parallel producer -/

/-- The producer's items bookkeeping: the announced items still to come,
the number buffered and not yet distributed, the input buffer size, and
whether the shutdown protocol (`done := true`, notify all workers, wait for
`runningWorkers == 0`) has run. -/
structure ProducerState where
  m_remainingItems : Nat
  written : Nat
  bufSize : Nat
  shutdownDone : Bool
  deriving Repr, DecidableEq

/-- The producer's visible actions in one `push` call. -/
inductive ProducerEvent where
  | storeItem
  | distribute
  | setDoneNotifyWait
  deriving Repr, DecidableEq

/-- `parallel_producer::begin`: fail unless the forwarded `items` datum can
be fetched, else record it as the remaining item count. -/
def producer_begin (canFetchItems : Bool) (items : Nat) : Except String Nat :=
  if canFetchItems then Except.ok items
  else Except.error "Parallel processing requires 'items' to be known"

/-- `parallel_producer::push`, with the two waiting loops abstracted to
events: throw once the announced count is exhausted; store the item; return
early while the buffer has room and items remain; otherwise distribute the
buffered items to workers (the `while (written > 0)` loop), and when this
push consumed the last announced item, run the shutdown protocol. -/
def producer_push (s : ProducerState) :
    Except String (ProducerState × List ProducerEvent) :=
  if s.m_remainingItems = 0 then Except.error "Got more items than expected"
  else
    let s1 : ProducerState :=
      { s with
        written := s.written + 1
        m_remainingItems := s.m_remainingItems - 1 }
    if s1.written < s1.bufSize ∧ 0 < s1.m_remainingItems then
      Except.ok (s1, [ProducerEvent.storeItem])
    else
      let s2 : ProducerState := { s1 with written := 0 }
      if 0 < s2.m_remainingItems then
        Except.ok (s2, [ProducerEvent.storeItem, ProducerEvent.distribute])
      else
        Except.ok ({ s2 with shutdownDone := true },
          [ProducerEvent.storeItem, ProducerEvent.distribute,
           ProducerEvent.setDoneNotifyWait])

/-- `parallel_producer::end`: only the input buffer is released; no
worker shutdown happens here. -/
def producer_end (s : ProducerState) : ProducerState × List ProducerEvent :=
  (s, [])

/-- C10: the producer needs the item count up front — `begin` fails when
`items` cannot be fetched — `push` past the announced count fails, and the
shutdown protocol runs exactly on the push that consumes the last announced
item, never in `end`. -/
theorem C10_producer_protocol (items : Nat) (s : ProducerState) :
    (producer_begin false items
        = Except.error "Parallel processing requires 'items' to be known")
    ∧ (producer_begin true items = Except.ok items)
    ∧ (s.m_remainingItems = 0 →
        producer_push s = Except.error "Got more items than expected")
    ∧ (s.m_remainingItems = 1 →
        ∃ s' ev, producer_push s = Except.ok (s', ev)
          ∧ ProducerEvent.setDoneNotifyWait ∈ ev
          ∧ s'.shutdownDone = true)
    ∧ (2 ≤ s.m_remainingItems →
        ∃ s' ev, producer_push s = Except.ok (s', ev)
          ∧ ProducerEvent.setDoneNotifyWait ∉ ev
          ∧ s'.shutdownDone = s.shutdownDone
          ∧ s'.m_remainingItems = s.m_remainingItems - 1)
    ∧ producer_end s = (s, []) := by
  refine ⟨rfl, rfl, ?_, ?_, ?_, rfl⟩
  · intro h
    rw [producer_push, if_pos h]
  · intro h
    rw [producer_push, if_neg (by omega)]
    rw [if_neg (by
      rintro ⟨-, hrem⟩
      have hrem2 : 0 < s.m_remainingItems - 1 := hrem
      omega)]
    rw [if_neg (by
      show ¬(0 < s.m_remainingItems - 1)
      omega)]
    exact ⟨_, _, rfl, by simp, rfl⟩
  · intro h
    rw [producer_push, if_neg (by omega)]
    by_cases hroom : s.written + 1 < s.bufSize ∧ 0 < s.m_remainingItems - 1
    · rw [if_pos hroom]
      exact ⟨_, _, rfl, by simp, rfl, rfl⟩
    · rw [if_neg hroom, if_pos (by show 0 < s.m_remainingItems - 1; omega)]
      exact ⟨_, _, rfl, by simp, rfl, rfl⟩

/-- A producer state with one announced item left. -/
def pdW : ProducerState :=
  { m_remainingItems := 1, written := 0, bufSize := 4, shutdownDone := false }

theorem C10_producer_protocol_witness :
    (producer_begin false 3
        = Except.error "Parallel processing requires 'items' to be known")
    ∧ (producer_begin true 3 = Except.ok 3)
    ∧ (pdW.m_remainingItems = 0 →
        producer_push pdW = Except.error "Got more items than expected")
    ∧ (pdW.m_remainingItems = 1 →
        ∃ s' ev, producer_push pdW = Except.ok (s', ev)
          ∧ ProducerEvent.setDoneNotifyWait ∈ ev
          ∧ s'.shutdownDone = true)
    ∧ (2 ≤ pdW.m_remainingItems →
        ∃ s' ev, producer_push pdW = Except.ok (s', ev)
          ∧ ProducerEvent.setDoneNotifyWait ∉ ev
          ∧ s'.shutdownDone = pdW.shutdownDone
          ∧ s'.m_remainingItems = pdW.m_remainingItems - 1)
    ∧ producer_end pdW = (pdW, []) :=
  C10_producer_protocol 3 pdW

end Tpie
